import Mathlib

/-!
Verification of the `dtw` repository (dynamic time warping in Rust).

The Rust sources are shallowly embedded below:

* `src/enums.rs`   → `Dtw.Action`, `Dtw.DistanceMode`
* `src/dtw.rs`     → `Dtw.minimum`, `Dtw.dtw_ex`, `Dtw.dtw` and the
  backtracking loop `Dtw.backtrackLoop`
* `src/cost.rs`    → `Dtw.CostMatrix`, `Dtw.CostCache`, `Dtw.CostStorageImpl`,
  `Dtw.cost_storage`
* `src/window.rs`  → `Dtw.FullWindow`, `Dtw.ConstrainedWindow`
* `src/fastdtw.rs` → `Dtw.coarse_time_series`

Modelling conventions:

* Rust `f64` values are modelled exactly.  The program only ever produces
  finite values and `+∞` (never NaN or `-∞`): local costs are absolute values
  or squares, and accumulation adds finite values to stored ones.  The type
  `Dtw.EF` therefore has a constructor `fin : ℚ → EF` for finite values and
  `inf : EF` for `+∞`, with the IEEE-754 comparison and addition semantics on
  that fragment.  Arithmetic on samples is modelled exactly over `ℚ`; the
  concrete scenarios checked below involve only small integers, on which IEEE
  double arithmetic is exact.
* The square root taken at the end of a Euclidean-mode run is expressed by the
  relation `Dtw.IsReportedDistance`: the reported distance is the unique
  non-negative real whose square is the accumulated cost.  The embedded
  `dtw_ex` returns the accumulated (pre-square-root) cost together with the
  path.
* Rust panics (failed asserts, `panic!` during backtracking, missing hash-map
  entries) are modelled by `Option`, `none` standing for a panic.
* `usize::MAX`, used as a sentinel by `ConstrainedWindow`, is `Dtw.usizeMAX`.
-/

namespace Dtw

/-- `Action` from `src/enums.rs`: which predecessor produced a cell's value. -/
inductive Action where
  | Inserted : Action
  | Deleted : Action
  | Matched : Action
  | Unknown : Action
deriving DecidableEq, Repr

/-- `DistanceMode` from `src/enums.rs`. -/
inductive DistanceMode where
  | Manhattan : DistanceMode
  | Euclidean : DistanceMode
deriving DecidableEq, Repr

/-- The `f64` values manipulated by the program: a finite value (exact, as a
rational) or `+∞`.  NaN and `-∞` never arise in this program. -/
inductive EF where
  | fin : ℚ → EF
  | inf : EF
deriving DecidableEq, Repr

/-- IEEE `<` restricted to finite values and `+∞`. -/
def EF.blt : EF → EF → Bool
  | EF.fin a, EF.fin b => decide (a < b)
  | EF.fin _, EF.inf => true
  | EF.inf, _ => false

/-- IEEE `≤` restricted to finite values and `+∞`. -/
def EF.ble : EF → EF → Bool
  | EF.fin a, EF.fin b => decide (a ≤ b)
  | EF.fin _, EF.inf => true
  | EF.inf, EF.fin _ => false
  | EF.inf, EF.inf => true

/-- IEEE `+` restricted to finite values and `+∞`. -/
def EF.add : EF → EF → EF
  | EF.fin a, EF.fin b => EF.fin (a + b)
  | _, _ => EF.inf

/-- A value the program can actually store: finite non-negative or `+∞`. -/
def EF.Nonneg : EF → Prop
  | EF.fin a => 0 ≤ a
  | EF.inf => True

/-- `minimum` from `src/dtw.rs` (lines 22-31): the three-way minimum over the
insertion / deletion / match predecessors, together with the chosen action.
The control flow is translated branch for branch:
`if i < d { if i < m { return (i, Inserted) } } else if d < m
{ return (d, Deleted) } (m, Matched)`. -/
def minimum (i d m : EF) : EF × Action :=
  if EF.blt i d then
    if EF.blt i m then (i, Action.Inserted)
    else (m, Action.Matched)
  else
    if EF.blt d m then (d, Action.Deleted)
    else (m, Action.Matched)

theorem EF.blt_irrefl (a : EF) : EF.blt a a = false := by
  cases a <;> simp [EF.blt]

theorem EF.ble_refl (a : EF) : EF.ble a a = true := by
  cases a <;> simp [EF.ble]

theorem EF.ble_of_blt {a b : EF} (h : EF.blt a b = true) : EF.ble a b = true := by
  cases a <;> cases b <;> simp_all [EF.blt, EF.ble] <;> exact le_of_lt h

theorem EF.ble_of_not_blt {a b : EF} (h : EF.blt a b = false) : EF.ble b a = true := by
  cases a <;> cases b <;> simp_all [EF.blt, EF.ble]

theorem EF.ble_trans {a b c : EF} (h1 : EF.ble a b = true) (h2 : EF.ble b c = true) :
    EF.ble a c = true := by
  cases a <;> cases b <;> cases c <;> simp_all [EF.ble] <;> exact le_trans h1 h2

/-- The first component of `minimum` is one of the three arguments and is a
lower bound of all three: it is the numerical minimum. -/
theorem minimum_fst_spec (i d m : EF) :
    ((minimum i d m).1 = i ∨ (minimum i d m).1 = d ∨ (minimum i d m).1 = m) ∧
      EF.ble (minimum i d m).1 i = true ∧ EF.ble (minimum i d m).1 d = true ∧
      EF.ble (minimum i d m).1 m = true := by
  rcases hid : EF.blt i d with _ | _
  · rcases hdm : EF.blt d m with _ | _
    · have e : minimum i d m = (m, Action.Matched) := by unfold minimum; simp [hid, hdm]
      rw [e]
      refine ⟨Or.inr (Or.inr rfl), ?_, EF.ble_of_not_blt hdm, EF.ble_refl m⟩
      exact EF.ble_trans (EF.ble_of_not_blt hdm) (EF.ble_of_not_blt hid)
    · have e : minimum i d m = (d, Action.Deleted) := by unfold minimum; simp [hid, hdm]
      rw [e]
      exact ⟨Or.inr (Or.inl rfl), EF.ble_of_not_blt hid, EF.ble_refl d, EF.ble_of_blt hdm⟩
  · rcases him : EF.blt i m with _ | _
    · have e : minimum i d m = (m, Action.Matched) := by unfold minimum; simp [hid, him]
      rw [e]
      refine ⟨Or.inr (Or.inr rfl), EF.ble_of_not_blt him, ?_, EF.ble_refl m⟩
      exact EF.ble_trans (EF.ble_of_not_blt him) (EF.ble_of_blt hid)
    · have e : minimum i d m = (i, Action.Inserted) := by unfold minimum; simp [hid, him]
      rw [e]
      exact ⟨Or.inl rfl, EF.ble_refl i, EF.ble_of_blt hid, EF.ble_of_blt him⟩

/-- The action `Inserted` is chosen exactly when insertion is strictly below
both other predecessors. -/
theorem minimum_snd_inserted (i d m : EF) :
    (minimum i d m).2 = Action.Inserted ↔ (EF.blt i d = true ∧ EF.blt i m = true) := by
  unfold minimum
  rcases hid : EF.blt i d with _ | _ <;> rcases hdm : EF.blt d m with _ | _ <;>
    rcases him : EF.blt i m with _ | _ <;> simp

/-- The action `Deleted` is chosen exactly when insertion is not strictly below
deletion and deletion is strictly below match. -/
theorem minimum_snd_deleted (i d m : EF) :
    (minimum i d m).2 = Action.Deleted ↔ (EF.blt i d = false ∧ EF.blt d m = true) := by
  unfold minimum
  rcases hid : EF.blt i d with _ | _ <;> rcases hdm : EF.blt d m with _ | _ <;>
    rcases him : EF.blt i m with _ | _ <;> simp

/-- The action chosen by `minimum` is never `Unknown`. -/
theorem minimum_snd_ne_unknown (i d m : EF) : (minimum i d m).2 ≠ Action.Unknown := by
  unfold minimum
  rcases hid : EF.blt i d with _ | _ <;> rcases hdm : EF.blt d m with _ | _ <;>
    rcases him : EF.blt i m with _ | _ <;> simp

/-- With a match predecessor of `0` and non-negative insertion and deletion
predecessors, `minimum` falls through to `(0, Matched)` in every branch. -/
theorem minimum_of_match_zero {i d : EF} (hi : i.Nonneg) (hd : d.Nonneg) :
    minimum i d (EF.fin 0) = (EF.fin 0, Action.Matched) := by
  have him : EF.blt i (EF.fin 0) = false := by
    cases i with
    | fin q => simpa [EF.blt] using hi
    | inf => simp [EF.blt]
  have hdm : EF.blt d (EF.fin 0) = false := by
    cases d with
    | fin q => simpa [EF.blt] using hd
    | inf => simp [EF.blt]
  unfold minimum
  rcases hid : EF.blt i d with _ | _ <;> simp [him, hdm]

/-- The dense storage `CostMatrix` from `src/cost.rs`.  The two `ndarray`
buffers of shape `rows × columns` are modelled as total functions on 0-based
indices; `rows` and `columns` record the allocated shape (accesses outside it
panic in Rust, so the theorems below restrict themselves to in-bounds
coordinates). -/
structure CostMatrix where
  rows : ℕ
  columns : ℕ
  cost_matrix : ℕ → ℕ → EF
  actions_matrix : ℕ → ℕ → Action

/-- `CostMatrix::new`: every cost starts at `+∞`, every action at `Unknown`,
and then cell `[[0, 0]]` of the buffer is overwritten with `0`. -/
def CostMatrix.new (rows columns : ℕ) : CostMatrix :=
  { rows := rows, columns := columns,
    cost_matrix := fun i j => if i = 0 ∧ j = 0 then EF.fin 0 else EF.inf,
    actions_matrix := fun _ _ => Action.Unknown }

/-- `CostMatrix::get_cost`. -/
def CostMatrix.get_cost (s : CostMatrix) (row column : ℕ) : EF :=
  if row = 0 ∧ column = 0 then EF.fin 0
  else if row = 0 ∨ column = 0 then EF.inf
  else s.cost_matrix (row - 1) (column - 1)

/-- `CostMatrix::set_cost`.  The Rust code asserts `row ≠ 0 ∧ column ≠ 0`
(panicking otherwise); the model performs the write only in the asserted
region, and every use below stays inside it. -/
def CostMatrix.set_cost (s : CostMatrix) (row column : ℕ) (cost : EF) : CostMatrix :=
  if row = 0 ∨ column = 0 then s
  else { s with cost_matrix := fun i j =>
          if i = row - 1 ∧ j = column - 1 then cost else s.cost_matrix i j }

/-- `CostMatrix::get_action`; `none` models the panic of the failed assert at
`row = 0` or `column = 0`. -/
def CostMatrix.get_action (s : CostMatrix) (row column : ℕ) : Option Action :=
  if row = 0 ∨ column = 0 then none
  else some (s.actions_matrix (row - 1) (column - 1))

/-- `CostMatrix::set_action` (same assert discipline as `set_cost`). -/
def CostMatrix.set_action (s : CostMatrix) (row column : ℕ) (a : Action) : CostMatrix :=
  if row = 0 ∨ column = 0 then s
  else { s with actions_matrix := fun i j =>
          if i = row - 1 ∧ j = column - 1 then a else s.actions_matrix i j }

/-- The sparse storage `CostCache` from `src/cost.rs`: one hash map per row,
modelled as `Option`-valued functions (`none` = key absent). -/
structure CostCache where
  rows : ℕ
  cost_cache : ℕ → ℕ → Option EF
  actions_cache : ℕ → ℕ → Option Action

/-- `CostCache::new`: `rows` empty maps. -/
def CostCache.new (rows : ℕ) : CostCache :=
  { rows := rows, cost_cache := fun _ _ => none, actions_cache := fun _ _ => none }

/-- `CostCache::get_cost`: stored value, defaulting to `+∞` via `unwrap_or`. -/
def CostCache.get_cost (s : CostCache) (row column : ℕ) : EF :=
  if row = 0 ∧ column = 0 then EF.fin 0
  else if row = 0 ∨ column = 0 then EF.inf
  else (s.cost_cache (row - 1) (column - 1)).getD EF.inf

/-- `CostCache::set_cost` (assert discipline as in the dense variant). -/
def CostCache.set_cost (s : CostCache) (row column : ℕ) (cost : EF) : CostCache :=
  if row = 0 ∨ column = 0 then s
  else { s with cost_cache := fun i j =>
          if i = row - 1 ∧ j = column - 1 then some cost else s.cost_cache i j }

/-- `CostCache::get_action`: the Rust indexing `map[&key]` panics when the key
is absent, which `none` models; the assert panic is `none` as well. -/
def CostCache.get_action (s : CostCache) (row column : ℕ) : Option Action :=
  if row = 0 ∨ column = 0 then none
  else s.actions_cache (row - 1) (column - 1)

/-- `CostCache::set_action`. -/
def CostCache.set_action (s : CostCache) (row column : ℕ) (a : Action) : CostCache :=
  if row = 0 ∨ column = 0 then s
  else { s with actions_cache := fun i j =>
          if i = row - 1 ∧ j = column - 1 then some a else s.actions_cache i j }

/-- The `Box<dyn CostStorage>` produced by the factory: one of the two
implementations. -/
inductive CostStorageImpl where
  | matrix : CostMatrix → CostStorageImpl
  | cache : CostCache → CostStorageImpl

def CostStorageImpl.get_cost : CostStorageImpl → ℕ → ℕ → EF
  | CostStorageImpl.matrix s, r, c => s.get_cost r c
  | CostStorageImpl.cache s, r, c => s.get_cost r c

def CostStorageImpl.set_cost : CostStorageImpl → ℕ → ℕ → EF → CostStorageImpl
  | CostStorageImpl.matrix s, r, c, v => CostStorageImpl.matrix (s.set_cost r c v)
  | CostStorageImpl.cache s, r, c, v => CostStorageImpl.cache (s.set_cost r c v)

def CostStorageImpl.get_action : CostStorageImpl → ℕ → ℕ → Option Action
  | CostStorageImpl.matrix s, r, c => s.get_action r c
  | CostStorageImpl.cache s, r, c => s.get_action r c

def CostStorageImpl.set_action : CostStorageImpl → ℕ → ℕ → Action → CostStorageImpl
  | CostStorageImpl.matrix s, r, c, a => CostStorageImpl.matrix (s.set_action r c a)
  | CostStorageImpl.cache s, r, c, a => CostStorageImpl.cache (s.set_action r c a)

/-- `cost_storage` from `src/cost.rs` with the default memory budget
`MAX_COST_STORAGE_MATRIX = 32 * 1024 * 1024 * 1024` bytes and
`size_of::<f64>() = 8`: dense when the projected cost table fits strictly
under the budget, sparse otherwise. -/
def cost_storage (rows columns : ℕ) : CostStorageImpl :=
  if rows * columns * 8 < 32 * 1024 * 1024 * 1024 then
    CostStorageImpl.matrix (CostMatrix.new rows columns)
  else
    CostStorageImpl.cache (CostCache.new rows)

theorem get_cost_set_cost_self (s : CostStorageImpl) {r c : ℕ} (hr : 1 ≤ r) (hc : 1 ≤ c)
    (v : EF) : (s.set_cost r c v).get_cost r c = v := by
  have hr0 : ¬(r = 0 ∨ c = 0) := by omega
  have hrc : ¬(r = 0 ∧ c = 0) := by omega
  cases s <;>
    simp [CostStorageImpl.set_cost, CostStorageImpl.get_cost, CostMatrix.set_cost,
      CostMatrix.get_cost, CostCache.set_cost, CostCache.get_cost, hr0, hrc]

theorem get_cost_set_cost_ne (s : CostStorageImpl) {r c r' c' : ℕ}
    (h : ¬(r' = r ∧ c' = c)) (v : EF) :
    (s.set_cost r c v).get_cost r' c' = s.get_cost r' c' := by
  by_cases hz : r = 0 ∨ c = 0
  · cases s <;>
      simp [CostStorageImpl.set_cost, CostStorageImpl.get_cost, CostMatrix.set_cost,
        CostCache.set_cost, hz]
  · by_cases hz' : r' = 0 ∨ c' = 0
    · rcases hz' with h' | h' <;> cases s <;>
        simp [CostStorageImpl.set_cost, CostStorageImpl.get_cost, CostMatrix.set_cost,
          CostMatrix.get_cost, CostCache.set_cost, CostCache.get_cost, hz, h']
    · have hne : ¬(r' - 1 = r - 1 ∧ c' - 1 = c - 1) := by omega
      have hrc' : ¬(r' = 0 ∧ c' = 0) := by omega
      cases s <;>
        simp [CostStorageImpl.set_cost, CostStorageImpl.get_cost, CostMatrix.set_cost,
          CostMatrix.get_cost, CostCache.set_cost, CostCache.get_cost, hz, hz', hrc', hne]

theorem get_cost_set_action (s : CostStorageImpl) (r c r' c' : ℕ) (a : Action) :
    (s.set_action r c a).get_cost r' c' = s.get_cost r' c' := by
  by_cases hz : r = 0 ∨ c = 0 <;>
    cases s <;>
      simp [CostStorageImpl.set_action, CostStorageImpl.get_cost, CostMatrix.set_action,
        CostMatrix.get_cost, CostCache.set_action, CostCache.get_cost, hz]

theorem get_action_set_cost (s : CostStorageImpl) (r c r' c' : ℕ) (v : EF) :
    (s.set_cost r c v).get_action r' c' = s.get_action r' c' := by
  by_cases hz : r = 0 ∨ c = 0 <;>
    cases s <;>
      simp [CostStorageImpl.set_cost, CostStorageImpl.get_action, CostMatrix.set_cost,
        CostMatrix.get_action, CostCache.set_cost, CostCache.get_action, hz]

theorem get_action_set_action_self (s : CostStorageImpl) {r c : ℕ} (hr : 1 ≤ r) (hc : 1 ≤ c)
    (a : Action) : (s.set_action r c a).get_action r c = some a := by
  have hr0 : ¬(r = 0 ∨ c = 0) := by omega
  cases s <;>
    simp [CostStorageImpl.set_action, CostStorageImpl.get_action, CostMatrix.set_action,
      CostMatrix.get_action, CostCache.set_action, CostCache.get_action, hr0]

theorem get_action_set_action_ne (s : CostStorageImpl) {r c r' c' : ℕ}
    (h : ¬(r' = r ∧ c' = c)) (a : Action) :
    (s.set_action r c a).get_action r' c' = s.get_action r' c' := by
  by_cases hz : r = 0 ∨ c = 0
  · cases s <;>
      simp [CostStorageImpl.set_action, CostStorageImpl.get_action, CostMatrix.set_action,
        CostCache.set_action, hz]
  · by_cases hz' : r' = 0 ∨ c' = 0
    · cases s <;>
        simp [CostStorageImpl.set_action, CostStorageImpl.get_action, CostMatrix.set_action,
          CostMatrix.get_action, CostCache.set_action, CostCache.get_action, hz, hz']
    · have hne : ¬(r' - 1 = r - 1 ∧ c' - 1 = c - 1) := by omega
      cases s <;>
        simp [CostStorageImpl.set_action, CostStorageImpl.get_action, CostMatrix.set_action,
          CostMatrix.get_action, CostCache.set_action, CostCache.get_action, hz, hz', hne]

/-- `FullWindow` from `src/window.rs`: cursor `(row, column)` bounded by the
exclusive ends `(end_row, end_column)`. -/
structure FullWindow where
  row : ℕ
  column : ℕ
  end_row : ℕ
  end_column : ℕ
deriving DecidableEq, Repr

/-- `FullWindow::new` (source parameter names kept; note the source passes
`(rows, columns)` here, so the first argument bounds the produced row index). -/
def FullWindow.new (x_size y_size : ℕ) : FullWindow :=
  { row := 1, column := 1, end_row := x_size + 1, end_column := y_size + 1 }

/-- One call to `FullWindow::next`: advance within the row, else move to the
next row (emitting `(row + 1, 1)` and leaving the cursor at column 2), else
finish. -/
def FullWindow.next (w : FullWindow) : Option ((ℕ × ℕ) × FullWindow) :=
  if w.column < w.end_column then
    some ((w.row, w.column), { w with column := w.column + 1 })
  else if w.row < w.end_row - 1 then
    some ((w.row + 1, 1), { w with row := w.row + 1, column := 2 })
  else
    none

/-- Steps the iterator can still make, used as fuel: rows remaining weighted by
the row length plus the remaining part of the current row. -/
def FullWindow.steps (w : FullWindow) : ℕ :=
  (w.end_row - w.row) * (w.end_column + 1) + (w.end_column - w.column)

/-- Run the iterator with explicit fuel, collecting the produced pairs. -/
def FullWindow.seqAux : ℕ → FullWindow → List (ℕ × ℕ)
  | 0, _ => []
  | fuel + 1, w =>
    match w.next with
    | none => []
    | some (p, w') => p :: FullWindow.seqAux fuel w'

/-- The full sequence of pairs produced by a `FullWindow` (the fuel
`steps + 1` is enough, as proved by `FullWindow.seqAux_congr` below). -/
def FullWindow.seq (w : FullWindow) : List (ℕ × ℕ) :=
  FullWindow.seqAux (w.steps + 1) w

theorem FullWindow.next_steps_lt {w : FullWindow} {p : ℕ × ℕ} {w' : FullWindow}
    (h : w.next = some (p, w')) : w'.steps < w.steps := by
  unfold FullWindow.next at h
  by_cases h1 : w.column < w.end_column
  · rw [if_pos h1] at h
    obtain ⟨rfl, rfl⟩ : p = (w.row, w.column) ∧ w' = { w with column := w.column + 1 } := by
      constructor <;> cases h <;> rfl
    unfold FullWindow.steps
    simp only
    generalize (w.end_row - w.row) * (w.end_column + 1) = P
    omega
  · rw [if_neg h1] at h
    by_cases h2 : w.row < w.end_row - 1
    · rw [if_pos h2] at h
      obtain ⟨rfl, rfl⟩ :
          p = (w.row + 1, 1) ∧ w' = { w with row := w.row + 1, column := 2 } := by
        constructor <;> cases h <;> rfl
      unfold FullWindow.steps
      simp only
      rw [show w.end_row - w.row = (w.end_row - (w.row + 1)) + 1 by omega, add_mul, one_mul]
      generalize (w.end_row - (w.row + 1)) * (w.end_column + 1) = P
      omega
    · rw [if_neg h2] at h
      cases h

theorem FullWindow.seqAux_congr :
    ∀ (f1 f2 : ℕ) (w : FullWindow), w.steps < f1 → w.steps < f2 →
      FullWindow.seqAux f1 w = FullWindow.seqAux f2 w := by
  intro f1
  induction f1 with
  | zero => intro f2 w h1 _; omega
  | succ f1 ih =>
    intro f2 w h1 h2
    cases f2 with
    | zero => omega
    | succ f2 =>
      unfold FullWindow.seqAux
      cases hn : w.next with
      | none => rfl
      | some pw =>
        obtain ⟨p, w'⟩ := pw
        have hlt := FullWindow.next_steps_lt hn
        dsimp only
        rw [ih f2 w' (by omega) (by omega)]

/-- Unfolding rule: `seq` takes the step `next` takes. -/
theorem FullWindow.seq_eq_next (w : FullWindow) :
    w.seq = match w.next with
      | none => []
      | some (p, w') => p :: w'.seq := by
  unfold FullWindow.seq
  conv_lhs => rw [FullWindow.seqAux]
  cases hn : w.next with
  | none => rfl
  | some pw =>
    obtain ⟨p, w'⟩ := pw
    have hlt := FullWindow.next_steps_lt hn
    dsimp only
    rw [FullWindow.seqAux_congr w.steps (w'.steps + 1) w' (by omega) (by omega)]

/-- The row-major enumeration of the block `[1, rows] × [1, cols]`. -/
def rowMajor (rows cols : ℕ) : List (ℕ × ℕ) :=
  (List.range' 1 rows).flatMap (fun r => (List.range' 1 cols).map (fun c => (r, c)))

/-- What remains to be produced from cursor `(r, c)` inside the
`(R + 1, C + 1)`-bounded window: the rest of row `r`, then the full rows
`r + 1 .. R`. -/
def rowSuffix (R C r c : ℕ) : List (ℕ × ℕ) :=
  ((List.range' c (C + 1 - c)).map (fun j => (r, j))) ++
    ((List.range' (r + 1) (R - r)).flatMap (fun i => (List.range' 1 C).map (fun j => (i, j))))

theorem rowSuffix_cons_col {R C r c : ℕ} (h1 : 1 ≤ c) (h2 : c ≤ C) :
    rowSuffix R C r c = (r, c) :: rowSuffix R C r (c + 1) := by
  unfold rowSuffix
  rw [show C + 1 - c = (C + 1 - (c + 1)) + 1 by omega, List.range'_succ]
  rfl

theorem rowSuffix_cons_row {R C r : ℕ} (hC : 1 ≤ C) (hr : r < R) :
    rowSuffix R C r (C + 1) = (r + 1, 1) :: rowSuffix R C (r + 1) 2 := by
  have h2 : List.range' (r + 1) (R - r) = (r + 1) :: List.range' (r + 2) (R - (r + 1)) := by
    conv_lhs => rw [show R - r = (R - (r + 1)) + 1 by omega]
    rw [List.range'_succ]
  have h3 : List.range' 1 C = 1 :: List.range' 2 (C - 1) := by
    conv_lhs => rw [show (C : ℕ) = (C - 1) + 1 by omega]
    rw [List.range'_succ]
  have h4 : C + 1 - 2 = C - 1 := by omega
  unfold rowSuffix
  rw [show C + 1 - (C + 1) = 0 by omega, h2, List.flatMap_cons, h3, List.map_cons, h4]
  rfl

theorem rowSuffix_last {R C : ℕ} : rowSuffix R C R (C + 1) = [] := by
  unfold rowSuffix
  rw [show C + 1 - (C + 1) = 0 by omega, Nat.sub_self]
  rfl

theorem FullWindow.next_state (r c er ec : ℕ) :
    FullWindow.next ⟨r, c, er, ec⟩ =
      if c < ec then some ((r, c), ⟨r, c + 1, er, ec⟩)
      else if r < er - 1 then some ((r + 1, 1), ⟨r + 1, 2, er, ec⟩)
      else none := rfl

theorem FullWindow.seq_of_next_none {w : FullWindow} (h : w.next = none) : w.seq = [] := by
  rw [FullWindow.seq_eq_next, h]

theorem FullWindow.seq_of_next_some {w : FullWindow} {p : ℕ × ℕ} {w' : FullWindow}
    (h : w.next = some (p, w')) : w.seq = p :: w'.seq := by
  rw [FullWindow.seq_eq_next, h]

theorem seq_inner_step (R C : ℕ) (r : ℕ)
    (hbase : FullWindow.seq ⟨r, C + 1, R + 1, C + 1⟩ = rowSuffix R C r (C + 1)) :
    ∀ j c, 1 ≤ c → c + j = C + 1 →
      FullWindow.seq ⟨r, c, R + 1, C + 1⟩ = rowSuffix R C r c := by
  intro j
  induction j with
  | zero =>
    intro c hc1 hcj
    have hc : c = C + 1 := by omega
    rw [hc]
    exact hbase
  | succ j ih =>
    intro c hc1 hcj
    have hlt : c < C + 1 := by omega
    have hn : FullWindow.next ⟨r, c, R + 1, C + 1⟩ =
        some ((r, c), ⟨r, c + 1, R + 1, C + 1⟩) := by
      rw [FullWindow.next_state, if_pos hlt]
    rw [FullWindow.seq_of_next_some hn, ih (c + 1) (by omega) (by omega)]
    exact (rowSuffix_cons_col hc1 (by omega)).symm

theorem seq_eq_rowSuffix (R C : ℕ) (hC : 1 ≤ C) :
    ∀ k r, 1 ≤ r → r ≤ R → R - r ≤ k →
      ∀ c, 1 ≤ c → c ≤ C + 1 →
        FullWindow.seq ⟨r, c, R + 1, C + 1⟩ = rowSuffix R C r c := by
  intro k
  induction k with
  | zero =>
    intro r hr1 hrR hk c hc1 hc2
    have hrR' : r = R := by omega
    have hn : FullWindow.next ⟨r, C + 1, R + 1, C + 1⟩ = none := by
      rw [FullWindow.next_state, if_neg (lt_irrefl _), if_neg (by omega)]
    have hbase : FullWindow.seq ⟨r, C + 1, R + 1, C + 1⟩ = rowSuffix R C r (C + 1) := by
      rw [FullWindow.seq_of_next_none hn, hrR', rowSuffix_last]
    exact seq_inner_step R C r hbase (C + 1 - c) c hc1 (by omega)
  | succ k ih =>
    intro r hr1 hrR hk
    by_cases hlt : r < R
    · have hn : FullWindow.next ⟨r, C + 1, R + 1, C + 1⟩ =
          some ((r + 1, 1), ⟨r + 1, 2, R + 1, C + 1⟩) := by
        rw [FullWindow.next_state, if_neg (lt_irrefl _), if_pos (by omega)]
      have hbase : FullWindow.seq ⟨r, C + 1, R + 1, C + 1⟩ = rowSuffix R C r (C + 1) := by
        rw [FullWindow.seq_of_next_some hn,
          ih (r + 1) (by omega) (by omega) (by omega) 2 (by omega) (by omega)]
        exact (rowSuffix_cons_row hC hlt).symm
      intro c hc1 hc2
      exact seq_inner_step R C r hbase (C + 1 - c) c hc1 (by omega)
    · intro c hc1 hc2
      exact ih r hr1 hrR (by omega) c hc1 hc2

/-- For positive dimensions, the constructed `FullWindow` produces exactly the
row-major enumeration of `[1, rows] × [1, cols]`. -/
theorem fullWindow_seq_rowMajor {rows cols : ℕ} (h1 : 1 ≤ rows) (h2 : 1 ≤ cols) :
    (FullWindow.new rows cols).seq = rowMajor rows cols := by
  have := seq_eq_rowSuffix rows cols h2 (rows - 1) 1 le_rfl h1 (by omega) 1 le_rfl (by omega)
  unfold FullWindow.new
  rw [this]
  unfold rowSuffix rowMajor
  rw [show rows = (rows - 1) + 1 by omega, List.range'_succ, List.flatMap_cons]
  rw [show (rows - 1) + 1 - 1 = rows - 1 by omega]
  rw [show cols + 1 - 1 = cols by omega]

/-- The per-cell local cost from `dtw_ex` (`src/dtw.rs`, lines 62-68):
absolute difference for Manhattan, squared difference for Euclidean.  Samples
are modelled exactly as rationals. -/
def localCost (mode : DistanceMode) (xv yv : ℚ) : ℚ :=
  match mode with
  | DistanceMode.Manhattan => |xv - yv|
  | DistanceMode.Euclidean => (xv - yv) * (xv - yv)

/-- The body of the window loop of `dtw_ex` (`src/dtw.rs`, lines 61-78) at one
cell: compute the local cost from `x[column-1]` and `y[row-1]`, take the
three-way `minimum` of the predecessor cells, store cost and action. -/
def dtwStep (mode : DistanceMode) (x y : List ℚ) (s : CostStorageImpl) (cell : ℕ × ℕ) :
    CostStorageImpl :=
  let row := cell.1
  let column := cell.2
  let cost := localCost mode (x.getD (column - 1) 0) (y.getD (row - 1) 0)
  let va := minimum (s.get_cost (row - 1) column) (s.get_cost row (column - 1))
    (s.get_cost (row - 1) (column - 1))
  (s.set_cost row column (EF.add (EF.fin cost) va.1)).set_action row column va.2

/-- The window loop of `dtw_ex`: fold `dtwStep` over the cells the window
produces, in order. -/
def processCells (mode : DistanceMode) (x y : List ℚ) (s : CostStorageImpl)
    (cells : List (ℕ × ℕ)) : CostStorageImpl :=
  cells.foldl (dtwStep mode x y) s

/-- The backtracking loop of `dtw_ex` (`src/dtw.rs`, lines 88-110), with
explicit fuel (each iteration decreases `row + column`, so fuel
`row + column + 1` is always enough — `backtrackAux_congr`).  The produced
list is in visit order: the 0-based pair `(row - 1, column - 1)` is recorded,
then the stored action decides the move.  `none` models the `panic!` on an
`Unknown` action and the panic of a failed sparse lookup. -/
def backtrackAux (s : CostStorageImpl) : ℕ → ℕ → ℕ → Option (List (ℕ × ℕ))
  | 0, _, _ => none
  | fuel + 1, row, column =>
    if row = 0 ∨ column = 0 then some []
    else
      match s.get_action row column with
      | some Action.Inserted =>
        (backtrackAux s fuel (row - 1) column).map (fun l => (row - 1, column - 1) :: l)
      | some Action.Deleted =>
        (backtrackAux s fuel row (column - 1)).map (fun l => (row - 1, column - 1) :: l)
      | some Action.Matched =>
        (backtrackAux s fuel (row - 1) (column - 1)).map (fun l => (row - 1, column - 1) :: l)
      | some Action.Unknown => none
      | none => none

/-- The backtracking loop with its canonical fuel. -/
def backtrackLoop (s : CostStorageImpl) (row column : ℕ) : Option (List (ℕ × ℕ)) :=
  backtrackAux s (row + column + 1) row column

/-- `dtw_ex` from `src/dtw.rs`.  The window is the list of cells its iterator
produces.  The returned `EF` is the accumulated bottom-right cost
`get_cost(y_size, x_size)` before the Euclidean square root, which
`IsReportedDistance` relates to the reported `f64`; the path is the reversed
backtracking record; `none` models a panic during backtracking. -/
def dtw_ex (x y : List ℚ) (window : List (ℕ × ℕ)) (mode : DistanceMode) :
    Option (EF × List (ℕ × ℕ)) :=
  let x_size := x.length
  let y_size := y.length
  let s := processCells mode x y (cost_storage y_size x_size) window
  (backtrackLoop s y_size x_size).map (fun p => (s.get_cost y_size x_size, p.reverse))

/-- `dtw` from `src/dtw.rs`: full window, Euclidean mode. -/
def dtw (x y : List ℚ) : Option (EF × List (ℕ × ℕ)) :=
  let rows := y.length
  let columns := x.length
  dtw_ex x y (FullWindow.new rows columns).seq DistanceMode.Euclidean

/-- IEEE square root relation used for the final Euclidean distance. -/
def IsReportedDistance : DistanceMode → EF → ℝ → Prop
  | DistanceMode.Manhattan, EF.fin q, d => d = (q : ℝ)
  | DistanceMode.Euclidean, EF.fin q, d => 0 ≤ d ∧ d * d = (q : ℝ)
  | _, EF.inf, _ => False

theorem backtrackAux_congr (s : CostStorageImpl) :
    ∀ f1 f2 row column, row + column < f1 → row + column < f2 →
      backtrackAux s f1 row column = backtrackAux s f2 row column := by
  intro f1
  induction f1 with
  | zero => intro f2 row column h1 _; omega
  | succ f1 ih =>
    intro f2 row column h1 h2
    cases f2 with
    | zero => omega
    | succ f2 =>
      unfold backtrackAux
      by_cases hz : row = 0 ∨ column = 0
      · rw [if_pos hz, if_pos hz]
      · rw [if_neg hz, if_neg hz]
        have hr : 1 ≤ row := by omega
        have hc : 1 ≤ column := by omega
        cases s.get_action row column with
        | none => rfl
        | some a =>
          cases a <;> dsimp only <;> rw [ih f2 _ _ (by omega) (by omega)]

theorem backtrackLoop_zero (s : CostStorageImpl) {row column : ℕ}
    (h : row = 0 ∨ column = 0) : backtrackLoop s row column = some [] := by
  unfold backtrackLoop backtrackAux
  rw [if_pos h]

theorem backtrackLoop_step (s : CostStorageImpl) {row column : ℕ}
    (hr : 1 ≤ row) (hc : 1 ≤ column) :
    backtrackLoop s row column =
      match s.get_action row column with
      | some Action.Inserted =>
        (backtrackLoop s (row - 1) column).map (fun l => (row - 1, column - 1) :: l)
      | some Action.Deleted =>
        (backtrackLoop s row (column - 1)).map (fun l => (row - 1, column - 1) :: l)
      | some Action.Matched =>
        (backtrackLoop s (row - 1) (column - 1)).map (fun l => (row - 1, column - 1) :: l)
      | some Action.Unknown => none
      | none => none := by
  conv_lhs => unfold backtrackLoop backtrackAux
  rw [if_neg (by omega)]
  cases s.get_action row column with
  | none => rfl
  | some a =>
    cases a
    case Inserted =>
      dsimp only
      rw [backtrackAux_congr s (row + column) ((row - 1) + column + 1) (row - 1) column
        (by omega) (by omega)]
      rfl
    case Deleted =>
      dsimp only
      rw [backtrackAux_congr s (row + column) (row + (column - 1) + 1) row (column - 1)
        (by omega) (by omega)]
      rfl
    case Matched =>
      dsimp only
      rw [backtrackAux_congr s (row + column) ((row - 1) + (column - 1) + 1) (row - 1)
        (column - 1) (by omega) (by omega)]
      rfl
    case Unknown => rfl

/-- Each backtracking step strictly decreases `row + column`, so a successful
run from `(row, column)` records at most `row + column - 1` pairs. -/
theorem backtrackLoop_length (s : CostStorageImpl) :
    ∀ n row column l, row + column ≤ n → backtrackLoop s row column = some l →
      l.length ≤ row + column - 1 := by
  intro n
  induction n with
  | zero =>
    intro row column l hn hl
    have hr : row = 0 ∨ column = 0 := by omega
    rw [backtrackLoop_zero s hr] at hl
    cases hl
    simp
  | succ n ih =>
    intro row column l hn hl
    by_cases hz : row = 0 ∨ column = 0
    · rw [backtrackLoop_zero s hz] at hl
      cases hl
      simp
    · rw [backtrackLoop_step s (by omega) (by omega)] at hl
      cases ha : s.get_action row column with
      | none => rw [ha] at hl; cases hl
      | some a =>
        rw [ha] at hl
        cases a with
        | Unknown => cases hl
        | Inserted =>
          cases hrec : backtrackLoop s (row - 1) column with
          | none => rw [hrec] at hl; cases hl
          | some l' =>
            rw [hrec] at hl
            cases hl
            have := ih (row - 1) column l' (by omega) hrec
            simp only [List.length_cons]
            omega
        | Deleted =>
          cases hrec : backtrackLoop s row (column - 1) with
          | none => rw [hrec] at hl; cases hl
          | some l' =>
            rw [hrec] at hl
            cases hl
            have := ih row (column - 1) l' (by omega) hrec
            simp only [List.length_cons]
            omega
        | Matched =>
          cases hrec : backtrackLoop s (row - 1) (column - 1) with
          | none => rw [hrec] at hl; cases hl
          | some l' =>
            rw [hrec] at hl
            cases hl
            have := ih (row - 1) (column - 1) l' (by omega) hrec
            simp only [List.length_cons]
            omega

/-- The dynamic-programming recurrence the window loop materialises: the
accumulated cost of cell `(r, c)` of the conceptual table, with the implicit
boundary (cost `0` at the origin, `+∞` on the zero row and zero column). -/
def dpCost (mode : DistanceMode) (x y : List ℚ) : ℕ → ℕ → EF
  | 0, 0 => EF.fin 0
  | 0, _ + 1 => EF.inf
  | _ + 1, 0 => EF.inf
  | r + 1, c + 1 =>
    EF.add (EF.fin (localCost mode (x.getD c 0) (y.getD r 0)))
      (minimum (dpCost mode x y r (c + 1)) (dpCost mode x y (r + 1) c)
        (dpCost mode x y r c)).1
termination_by r c => r + c

/-- The action the recurrence stores at an interior cell `(r, c)`,
`1 ≤ r`, `1 ≤ c`. -/
def dpAction (mode : DistanceMode) (x y : List ℚ) (r c : ℕ) : Action :=
  (minimum (dpCost mode x y (r - 1) c) (dpCost mode x y r (c - 1))
    (dpCost mode x y (r - 1) (c - 1))).2

theorem dpCost_row_zero (mode : DistanceMode) (x y : List ℚ) (c : ℕ) :
    dpCost mode x y 0 c = if c = 0 then EF.fin 0 else EF.inf := by
  cases c <;> simp [dpCost]

theorem dpCost_col_zero (mode : DistanceMode) (x y : List ℚ) (r : ℕ) :
    dpCost mode x y r 0 = if r = 0 then EF.fin 0 else EF.inf := by
  cases r <;> simp [dpCost]

theorem dpCost_pos (mode : DistanceMode) (x y : List ℚ) {r c : ℕ}
    (hr : 1 ≤ r) (hc : 1 ≤ c) :
    dpCost mode x y r c =
      EF.add (EF.fin (localCost mode (x.getD (c - 1) 0) (y.getD (r - 1) 0)))
        (minimum (dpCost mode x y (r - 1) c) (dpCost mode x y r (c - 1))
          (dpCost mode x y (r - 1) (c - 1))).1 := by
  obtain ⟨r', rfl⟩ : ∃ r', r = r' + 1 := ⟨r - 1, by omega⟩
  obtain ⟨c', rfl⟩ : ∃ c', c = c' + 1 := ⟨c - 1, by omega⟩
  simp [dpCost]

theorem get_cost_row_zero (s : CostStorageImpl) (c : ℕ) :
    s.get_cost 0 c = if c = 0 then EF.fin 0 else EF.inf := by
  cases s <;> by_cases hc : c = 0 <;>
    simp [CostStorageImpl.get_cost, CostMatrix.get_cost, CostCache.get_cost, hc]

theorem get_cost_col_zero (s : CostStorageImpl) (r : ℕ) :
    s.get_cost r 0 = if r = 0 then EF.fin 0 else EF.inf := by
  cases s <;> by_cases hr : r = 0 <;>
    simp [CostStorageImpl.get_cost, CostMatrix.get_cost, CostCache.get_cost, hr]

theorem get_cost_dp_boundary (mode : DistanceMode) (x y : List ℚ) (s : CostStorageImpl)
    {r c : ℕ} (h : r = 0 ∨ c = 0) : s.get_cost r c = dpCost mode x y r c := by
  rcases h with h | h
  · subst h
    rw [get_cost_row_zero, dpCost_row_zero]
  · subst h
    rw [get_cost_col_zero, dpCost_col_zero]

/-- All cells of the row-major region up to cursor `(ρ, γ)` — rows below `ρ`
complete, row `ρ` through column `γ` — hold the recurrence values. -/
def Good (mode : DistanceMode) (x y : List ℚ) (s : CostStorageImpl) (C ρ γ : ℕ) : Prop :=
  ∀ r c, 1 ≤ r → 1 ≤ c → c ≤ C → (r < ρ ∨ (r = ρ ∧ c ≤ γ)) →
    s.get_cost r c = dpCost mode x y r c ∧
      s.get_action r c = some (dpAction mode x y r c)

theorem good_read (mode : DistanceMode) (x y : List ℚ) {s : CostStorageImpl} {C ρ γ : ℕ}
    (hg : Good mode x y s C ρ γ) {r c : ℕ} (hc : c ≤ C)
    (h : r = 0 ∨ c = 0 ∨ (1 ≤ r ∧ 1 ≤ c ∧ (r < ρ ∨ (r = ρ ∧ c ≤ γ)))) :
    s.get_cost r c = dpCost mode x y r c := by
  rcases h with h | h | ⟨h1, h2, h3⟩
  · exact get_cost_dp_boundary mode x y s (Or.inl h)
  · exact get_cost_dp_boundary mode x y s (Or.inr h)
  · exact (hg r c h1 h2 hc h3).1

theorem good_step (mode : DistanceMode) (x y : List ℚ) {s : CostStorageImpl} {C ρ γ : ℕ}
    (hρ : 1 ≤ ρ) (hγ : γ + 1 ≤ C) (hg : Good mode x y s C ρ γ) :
    Good mode x y (dtwStep mode x y s (ρ, γ + 1)) C ρ (γ + 1) := by
  have hi : s.get_cost (ρ - 1) (γ + 1) = dpCost mode x y (ρ - 1) (γ + 1) := by
    refine good_read mode x y hg hγ ?_
    by_cases h1 : ρ = 1
    · exact Or.inl (by omega)
    · exact Or.inr (Or.inr ⟨by omega, by omega, Or.inl (by omega)⟩)
  have hd : s.get_cost ρ γ = dpCost mode x y ρ γ := by
    refine good_read mode x y hg (by omega) ?_
    by_cases h1 : γ = 0
    · exact Or.inr (Or.inl h1)
    · exact Or.inr (Or.inr ⟨by omega, by omega, Or.inr ⟨rfl, le_rfl⟩⟩)
  have hm : s.get_cost (ρ - 1) γ = dpCost mode x y (ρ - 1) γ := by
    refine good_read mode x y hg (by omega) ?_
    by_cases h1 : ρ = 1
    · exact Or.inl (by omega)
    · by_cases h2 : γ = 0
      · exact Or.inr (Or.inl h2)
      · exact Or.inr (Or.inr ⟨by omega, by omega, Or.inl (by omega)⟩)
  intro r c hr1 hc1 hcC hreg
  by_cases hcell : r = ρ ∧ c = γ + 1
  · obtain ⟨rfl, rfl⟩ := hcell
    unfold dtwStep
    simp only
    constructor
    · rw [get_cost_set_action, get_cost_set_cost_self _ hρ (by omega)]
      simp only [Nat.add_sub_cancel]
      rw [hi, hd, hm, dpCost_pos mode x y hρ (by omega : (1:ℕ) ≤ γ + 1)]
      simp only [Nat.add_sub_cancel]
    · rw [get_action_set_action_self _ hρ (by omega)]
      simp only [Nat.add_sub_cancel]
      rw [hi, hd, hm]
      rfl
  · have hreg' : r < ρ ∨ (r = ρ ∧ c ≤ γ) := by
      rcases hreg with h | ⟨h1, h2⟩
      · exact Or.inl h
      · exact Or.inr ⟨h1, by omega⟩
    have := hg r c hr1 hc1 hcC hreg'
    unfold dtwStep
    simp only
    constructor
    · rw [get_cost_set_action, get_cost_set_cost_ne _ hcell]
      exact this.1
    · rw [get_action_set_action_ne _ hcell, get_action_set_cost]
      exact this.2

theorem processCells_cons (mode : DistanceMode) (x y : List ℚ) (s : CostStorageImpl)
    (a : ℕ × ℕ) (l : List (ℕ × ℕ)) :
    processCells mode x y s (a :: l) = processCells mode x y (dtwStep mode x y s a) l := rfl

theorem processCells_append (mode : DistanceMode) (x y : List ℚ) (s : CostStorageImpl)
    (l1 l2 : List (ℕ × ℕ)) :
    processCells mode x y s (l1 ++ l2) =
      processCells mode x y (processCells mode x y s l1) l2 := by
  unfold processCells
  exact List.foldl_append _ _ _ _

theorem good_row (mode : DistanceMode) (x y : List ℚ) {C ρ : ℕ} (hρ : 1 ≤ ρ) :
    ∀ j γ s, γ + j = C → Good mode x y s C ρ γ →
      Good mode x y
        (processCells mode x y s ((List.range' (γ + 1) j).map (fun c => (ρ, c)))) C ρ C := by
  intro j
  induction j with
  | zero =>
    intro γ s h hg
    have hγ : γ = C := by omega
    subst hγ
    exact hg
  | succ j ih =>
    intro γ s h hg
    rw [List.range'_succ, List.map_cons, processCells_cons]
    have hstep := good_step mode x y hρ (by omega) hg
    have := ih (γ + 1) (dtwStep mode x y s (ρ, γ + 1)) (by omega) hstep
    rw [show γ + 1 + 1 = γ + 2 by omega] at this
    exact this

theorem good_weaken_row (mode : DistanceMode) (x y : List ℚ) {s : CostStorageImpl}
    {C ρ : ℕ} (hg : Good mode x y s C ρ C) : Good mode x y s C (ρ + 1) 0 := by
  intro r c hr1 hc1 hcC hreg
  refine hg r c hr1 hc1 hcC ?_
  rcases hreg with h | ⟨h1, h2⟩
  · by_cases hr : r = ρ
    · exact Or.inr ⟨hr, hcC⟩
    · exact Or.inl (by omega)
  · omega

theorem good_rows (mode : DistanceMode) (x y : List ℚ) {C : ℕ} :
    ∀ k ρ s, Good mode x y s C ρ C →
      Good mode x y
        (processCells mode x y s
          ((List.range' (ρ + 1) k).flatMap (fun r => (List.range' 1 C).map (fun c => (r, c)))))
        C (ρ + k) C := by
  intro k
  induction k with
  | zero =>
    intro ρ s hg
    exact hg
  | succ k ih =>
    intro ρ s hg
    rw [List.range'_succ, List.flatMap_cons, processCells_append]
    have hg0 : Good mode x y s C (ρ + 1) 0 := good_weaken_row mode x y hg
    have hrow := good_row mode x y (show 1 ≤ ρ + 1 by omega) C 0 s (by omega) hg0
    have hzero : (List.range' (0 + 1) C).map (fun c => (ρ + 1, c)) =
        (List.range' 1 C).map (fun c => (ρ + 1, c)) := by norm_num
    rw [hzero] at hrow
    have := ih (ρ + 1) _ hrow
    rw [show ρ + 1 + 1 = ρ + 2 by omega] at this
    rw [show ρ + 1 + k = ρ + (k + 1) by omega] at this
    exact this

/-- Master lemma: folding the window loop over the full row-major cell list
leaves every interior cell of the table at its recurrence value, for any
initial storage (dense or sparse): the loop never reads an interior cell
before writing it. -/
theorem processCells_rowMajor_good (mode : DistanceMode) (x y : List ℚ)
    (s : CostStorageImpl) (R C : ℕ) :
    Good mode x y (processCells mode x y s (rowMajor R C)) C R C := by
  have h0 : Good mode x y s C 0 C := by
    intro r c h1 h2 h3 h4
    omega
  have := good_rows mode x y R 0 s h0
  rw [show (0:ℕ) + 1 = 1 by omega, show (0:ℕ) + R = R by omega] at this
  exact this

theorem localCost_nonneg (mode : DistanceMode) (a b : ℚ) : 0 ≤ localCost mode a b := by
  cases mode with
  | Manhattan => exact abs_nonneg _
  | Euclidean => exact mul_self_nonneg _

theorem EF.add_nonneg {a b : EF} (ha : a.Nonneg) (hb : b.Nonneg) : (EF.add a b).Nonneg := by
  cases a <;> cases b <;> simp_all [EF.add, EF.Nonneg]
  positivity

theorem EF.nonneg_of_mem {v i d m : EF} (h : v = i ∨ v = d ∨ v = m)
    (hi : i.Nonneg) (hd : d.Nonneg) (hm : m.Nonneg) : v.Nonneg := by
  rcases h with rfl | rfl | rfl <;> assumption

/-- Every accumulated cost is non-negative or infinite: local costs are
absolute values or squares, and `minimum` returns one of its arguments. -/
theorem dpCost_nonneg (mode : DistanceMode) (x y : List ℚ) :
    ∀ n r c, r + c ≤ n → (dpCost mode x y r c).Nonneg := by
  intro n
  induction n with
  | zero =>
    intro r c h
    have hr : r = 0 := by omega
    have hc : c = 0 := by omega
    subst hr; subst hc
    simp [dpCost, EF.Nonneg]
  | succ n ih =>
    intro r c h
    by_cases hr : r = 0
    · subst hr
      rw [dpCost_row_zero]
      split <;> simp [EF.Nonneg]
    · by_cases hc : c = 0
      · subst hc
        rw [dpCost_col_zero]
        split <;> simp [EF.Nonneg]
      · rw [dpCost_pos mode x y (by omega) (by omega)]
        have hi := ih (r - 1) c (by omega)
        have hd := ih r (c - 1) (by omega)
        have hm := ih (r - 1) (c - 1) (by omega)
        have hmin := (minimum_fst_spec (dpCost mode x y (r - 1) c) (dpCost mode x y r (c - 1))
          (dpCost mode x y (r - 1) (c - 1))).1
        exact EF.add_nonneg (by simpa [EF.Nonneg] using localCost_nonneg mode _ _)
          (EF.nonneg_of_mem hmin hi hd hm)

/-- Along the first row every interior cost is finite. -/
theorem dpCost_row1_fin (mode : DistanceMode) (x y : List ℚ) :
    ∀ c, 1 ≤ c → ∃ q, dpCost mode x y 1 c = EF.fin q := by
  intro c
  induction c with
  | zero => omega
  | succ c ih =>
    intro _
    by_cases hc : c = 0
    · subst hc
      rw [dpCost_pos mode x y le_rfl le_rfl]
      simp only [Nat.sub_self]
      rw [show dpCost mode x y 0 1 = EF.inf by rw [dpCost_row_zero]; simp]
      rw [show dpCost mode x y 1 0 = EF.inf by rw [dpCost_col_zero]; simp]
      rw [show dpCost mode x y 0 0 = EF.fin 0 by rw [dpCost_row_zero]; simp]
      exact ⟨_, rfl⟩
    · obtain ⟨q, hq⟩ := ih (by omega)
      rw [dpCost_pos mode x y le_rfl (by omega)]
      simp only [Nat.add_sub_cancel]
      rw [show (1:ℕ) - 1 = 0 by omega]
      rw [show dpCost mode x y 0 (c + 1) = EF.inf by rw [dpCost_row_zero]; simp]
      rw [show dpCost mode x y 0 c = EF.inf by rw [dpCost_row_zero]; simp [hc]]
      rw [hq]
      exact ⟨_, rfl⟩

/-- Along the first column every interior cost is finite. -/
theorem dpCost_col1_fin (mode : DistanceMode) (x y : List ℚ) :
    ∀ r, 1 ≤ r → ∃ q, dpCost mode x y r 1 = EF.fin q := by
  intro r
  induction r with
  | zero => omega
  | succ r ih =>
    intro _
    by_cases hr : r = 0
    · subst hr
      rw [dpCost_pos mode x y le_rfl le_rfl]
      simp only [Nat.sub_self]
      rw [show dpCost mode x y 0 1 = EF.inf by rw [dpCost_row_zero]; simp]
      rw [show dpCost mode x y 1 0 = EF.inf by rw [dpCost_col_zero]; simp]
      rw [show dpCost mode x y 0 0 = EF.fin 0 by rw [dpCost_row_zero]; simp]
      exact ⟨_, rfl⟩
    · obtain ⟨q, hq⟩ := ih (by omega)
      rw [dpCost_pos mode x y (by omega) le_rfl]
      simp only [Nat.add_sub_cancel]
      rw [show (1:ℕ) - 1 = 0 by omega]
      rw [show dpCost mode x y (r + 1) 0 = EF.inf by rw [dpCost_col_zero]; simp]
      rw [show dpCost mode x y r 0 = EF.inf by rw [dpCost_col_zero]; simp [hr]]
      rw [hq]
      exact ⟨_, rfl⟩

/-- At cell `(1, 1)` the stored action is `Matched`. -/
theorem dpAction_origin (mode : DistanceMode) (x y : List ℚ) :
    dpAction mode x y 1 1 = Action.Matched := by
  unfold dpAction
  rw [show (1:ℕ) - 1 = 0 by omega]
  rw [show dpCost mode x y 0 1 = EF.inf by rw [dpCost_row_zero]; simp]
  rw [show dpCost mode x y 1 0 = EF.inf by rw [dpCost_col_zero]; simp]
  rw [show dpCost mode x y 0 0 = EF.fin 0 by rw [dpCost_row_zero]; simp]
  rfl

/-- On the first row, away from the origin, the stored action is `Deleted`. -/
theorem dpAction_row1 (mode : DistanceMode) (x y : List ℚ) {c : ℕ} (hc : 2 ≤ c) :
    dpAction mode x y 1 c = Action.Deleted := by
  unfold dpAction
  rw [show (1:ℕ) - 1 = 0 by omega]
  obtain ⟨q, hq⟩ := dpCost_row1_fin mode x y (c - 1) (by omega)
  rw [show dpCost mode x y 0 c = EF.inf by rw [dpCost_row_zero]; simp; omega]
  rw [show dpCost mode x y 0 (c - 1) = EF.inf by rw [dpCost_row_zero]; simp; omega]
  rw [hq]
  rfl

/-- On the first column, away from the origin, the stored action is
`Inserted`. -/
theorem dpAction_col1 (mode : DistanceMode) (x y : List ℚ) {r : ℕ} (hr : 2 ≤ r) :
    dpAction mode x y r 1 = Action.Inserted := by
  unfold dpAction
  rw [show (1:ℕ) - 1 = 0 by omega]
  obtain ⟨q, hq⟩ := dpCost_col1_fin mode x y (r - 1) (by omega)
  rw [show dpCost mode x y r 0 = EF.inf by rw [dpCost_col_zero]; simp; omega]
  rw [show dpCost mode x y (r - 1) 0 = EF.inf by rw [dpCost_col_zero]; simp; omega]
  rw [hq]
  rfl

theorem getLast_cons_of_ne_nil {α : Type} (a : α) {l : List α} (h : l ≠ []) :
    (a :: l).getLast? = l.getLast? := by
  cases l with
  | nil => exact absurd rfl h
  | cons b t => exact List.getLast?_cons_cons

/-- Characterisation of `dtw` for non-empty inputs: the window is the
row-major enumeration, so after the loop the storage holds the recurrence
values everywhere, and the result is the backtracking of that storage. -/
theorem dtw_eq (x y : List ℚ) (hx : 1 ≤ x.length) (hy : 1 ≤ y.length) :
    ∃ s : CostStorageImpl,
      Good DistanceMode.Euclidean x y s x.length y.length x.length ∧
      dtw x y = (backtrackLoop s y.length x.length).map
        (fun p => (s.get_cost y.length x.length, p.reverse)) := by
  refine ⟨processCells DistanceMode.Euclidean x y (cost_storage y.length x.length)
    (rowMajor y.length x.length), ?_, ?_⟩
  · exact processCells_rowMajor_good DistanceMode.Euclidean x y _ y.length x.length
  · unfold dtw dtw_ex
    dsimp only
    rw [fullWindow_seq_rowMajor hy hx]

/-- Backtracking over a storage that stores the recurrence actions on
`[1, R] × [1, C]` always succeeds when started inside that region, records the
0-based start cell first, and walks all the way back to `(0, 0)`. -/
theorem backtrack_endpoints (mode : DistanceMode) (x y : List ℚ) {s : CostStorageImpl}
    {R C : ℕ}
    (HA : ∀ r c, 1 ≤ r → r ≤ R → 1 ≤ c → c ≤ C →
      s.get_action r c = some (dpAction mode x y r c)) :
    ∀ n r c, r + c ≤ n → 1 ≤ r → r ≤ R → 1 ≤ c → c ≤ C →
      ∃ l, backtrackLoop s r c = some l ∧ l.head? = some (r - 1, c - 1) ∧
        l.getLast? = some (0, 0) := by
  intro n
  induction n with
  | zero => intro r c h; omega
  | succ n ih =>
    intro r c hn hr1 hrR hc1 hcC
    rw [backtrackLoop_step s hr1 hc1, HA r c hr1 hrR hc1 hcC]
    by_cases h11 : r = 1 ∧ c = 1
    · obtain ⟨rfl, rfl⟩ := h11
      rw [dpAction_origin]
      dsimp only
      rw [backtrackLoop_zero s (by omega)]
      exact ⟨[(0, 0)], rfl, rfl, rfl⟩
    · by_cases hrow : r = 1
      · subst hrow
        have hc2 : 2 ≤ c := by omega
        rw [dpAction_row1 mode x y hc2]
        dsimp only
        obtain ⟨l, hl, hhead, hlast⟩ := ih 1 (c - 1) (by omega) le_rfl hrR (by omega) (by omega)
        rw [hl]
        refine ⟨(0, c - 1) :: l, rfl, rfl, ?_⟩
        rw [getLast_cons_of_ne_nil _ (by rintro rfl; simp at hhead)]
        exact hlast
      · by_cases hcol : c = 1
        · subst hcol
          have hr2 : 2 ≤ r := by omega
          rw [dpAction_col1 mode x y hr2]
          dsimp only
          obtain ⟨l, hl, hhead, hlast⟩ := ih (r - 1) 1 (by omega) (by omega) (by omega)
            le_rfl hcC
          rw [hl]
          refine ⟨(r - 1, 0) :: l, rfl, rfl, ?_⟩
          rw [getLast_cons_of_ne_nil _ (by rintro rfl; simp at hhead)]
          exact hlast
        · have hr2 : 2 ≤ r := by omega
          have hc2 : 2 ≤ c := by omega
          rcases ha : dpAction mode x y r c with _ | _ | _ | _
          · dsimp only
            obtain ⟨l, hl, hhead, hlast⟩ := ih (r - 1) c (by omega) (by omega) (by omega)
              hc1 hcC
            rw [hl]
            refine ⟨(r - 1, c - 1) :: l, rfl, rfl, ?_⟩
            rw [getLast_cons_of_ne_nil _ (by rintro rfl; simp at hhead)]
            exact hlast
          · dsimp only
            obtain ⟨l, hl, hhead, hlast⟩ := ih r (c - 1) (by omega) hr1 hrR (by omega)
              (by omega)
            rw [hl]
            refine ⟨(r - 1, c - 1) :: l, rfl, rfl, ?_⟩
            rw [getLast_cons_of_ne_nil _ (by rintro rfl; simp at hhead)]
            exact hlast
          · dsimp only
            obtain ⟨l, hl, hhead, hlast⟩ := ih (r - 1) (c - 1) (by omega) (by omega)
              (by omega) (by omega) (by omega)
            rw [hl]
            refine ⟨(r - 1, c - 1) :: l, rfl, rfl, ?_⟩
            rw [getLast_cons_of_ne_nil _ (by rintro rfl; simp at hhead)]
            exact hlast
          · exact absurd ha (minimum_snd_ne_unknown _ _ _)

/-- On identical inputs the whole diagonal carries cost `0` and action
`Matched`: the local cost vanishes there, and with a zero match predecessor
the tie-break of `minimum` always falls through to `Matched`. -/
theorem dpCost_diag (x : List ℚ) :
    ∀ k, 1 ≤ k → dpCost DistanceMode.Euclidean x x k k = EF.fin 0 ∧
      dpAction DistanceMode.Euclidean x x k k = Action.Matched := by
  intro k
  induction k with
  | zero => omega
  | succ k ih =>
    intro _
    have hm : dpCost DistanceMode.Euclidean x x k k = EF.fin 0 := by
      by_cases hk : k = 0
      · subst hk; simp [dpCost]
      · exact (ih (by omega)).1
    have hi := dpCost_nonneg DistanceMode.Euclidean x x (k + (k + 1)) k (k + 1) le_rfl
    have hd := dpCost_nonneg DistanceMode.Euclidean x x ((k + 1) + k) (k + 1) k le_rfl
    have hloc : localCost DistanceMode.Euclidean (x.getD k 0) (x.getD k 0) = 0 := by
      simp [localCost]
    constructor
    · rw [dpCost_pos DistanceMode.Euclidean x x (by omega) (by omega)]
      simp only [Nat.add_sub_cancel]
      rw [hm, minimum_of_match_zero hi hd, hloc]
      simp [EF.add]
    · unfold dpAction
      simp only [Nat.add_sub_cancel]
      rw [hm, minimum_of_match_zero hi hd]

/-- Backtracking a storage whose diagonal actions are all `Matched` walks the
diagonal. -/
theorem backtrack_diag {s : CostStorageImpl} {n : ℕ}
    (HA : ∀ k, 1 ≤ k → k ≤ n → s.get_action k k = some Action.Matched) :
    ∀ k, k ≤ n →
      backtrackLoop s k k = some (((List.range k).map (fun j => (j, j))).reverse) := by
  intro k
  induction k with
  | zero => intro _; rw [backtrackLoop_zero s (Or.inl rfl)]; simp
  | succ k ih =>
    intro hk
    rw [backtrackLoop_step s (by omega) (by omega), HA (k + 1) (by omega) hk]
    dsimp only
    simp only [Nat.add_sub_cancel]
    rw [ih (by omega)]
    rw [List.range_succ]
    simp

/-- C9: the first component of the tuple returned by `minimum(i, d, m)` is the
numerically smallest of the three arguments — it equals one of them and is
`≤` each of them (in the IEEE order on finite-or-`+∞` values), so the
accumulated cost is independent of which action is chosen on ties. -/
theorem C9_minimum_returns_min (i d m : EF) :
    ((minimum i d m).1 = i ∨ (minimum i d m).1 = d ∨ (minimum i d m).1 = m) ∧
      EF.ble (minimum i d m).1 i = true ∧ EF.ble (minimum i d m).1 d = true ∧
      EF.ble (minimum i d m).1 m = true :=
  minimum_fst_spec i d m

/-- C1 counterexample: with all three predecessor values equal the chosen
action is `Matched`, not `Inserted` — the first branch requires `i < d`
strictly, so on a three-way tie control falls through to the final
`(m, Matched)`. -/
theorem C1_counterexample :
    (minimum (EF.fin 0) (EF.fin 0) (EF.fin 0)).2 = Action.Matched ∧
      Action.Matched ≠ Action.Inserted := by
  exact ⟨rfl, by decide⟩

/-- C1 amended: insertion is chosen exactly when it is strictly below both
deletion and match; deletion exactly when insertion is not strictly below
deletion and deletion is strictly below match; in every other case — all ties
included — match is chosen, and in particular a three-way tie yields
`Matched`. -/
theorem C1_tie_break_amended (i d m : EF) :
    ((minimum i d m).2 = Action.Inserted ↔ (EF.blt i d = true ∧ EF.blt i m = true)) ∧
      ((minimum i d m).2 = Action.Deleted ↔ (EF.blt i d = false ∧ EF.blt d m = true)) ∧
      (minimum i i i).2 = Action.Matched := by
  refine ⟨minimum_snd_inserted i d m, minimum_snd_deleted i d m, ?_⟩
  unfold minimum
  rw [EF.blt_irrefl i]
  simp

/-- C5: on any non-empty input against itself, `dtw` accumulates cost `0`
(so the reported Euclidean distance, its square root, is `0`) and the warp
path is exactly the diagonal `[(0,0), …, (n-1,n-1)]`. -/
theorem C5_dtw_identity (x : List ℚ) (hx : x ≠ []) :
    dtw x x = some (EF.fin 0, (List.range x.length).map (fun k => (k, k))) ∧
      IsReportedDistance DistanceMode.Euclidean (EF.fin 0) 0 := by
  have hlen : 1 ≤ x.length := by
    cases x with
    | nil => exact absurd rfl hx
    | cons a l => simp
  obtain ⟨s, hg, heq⟩ := dtw_eq x x hlen hlen
  have HA : ∀ k, 1 ≤ k → k ≤ x.length → s.get_action k k = some Action.Matched := by
    intro k h1 h2
    have := (hg k k h1 h1 h2 (by omega)).2
    rw [this, (dpCost_diag x k h1).2]
  have hcost : s.get_cost x.length x.length = EF.fin 0 := by
    rw [(hg x.length x.length hlen hlen le_rfl (by omega)).1]
    exact (dpCost_diag x x.length hlen).1
  constructor
  · rw [heq, backtrack_diag HA x.length le_rfl]
    simp [hcost]
  · refine ⟨le_rfl, by norm_num⟩

/-- C6: for non-empty inputs the warp path is non-empty, starts at `(0, 0)`
and ends at `(|y| - 1, |x| - 1)`. -/
theorem C6_path_endpoints (x y : List ℚ) (hx : x ≠ []) (hy : y ≠ []) :
    ∃ d p, dtw x y = some (d, p) ∧ p ≠ [] ∧ p.head? = some (0, 0) ∧
      p.getLast? = some (y.length - 1, x.length - 1) := by
  have hxl : 1 ≤ x.length := by
    cases x with
    | nil => exact absurd rfl hx
    | cons a l => simp
  have hyl : 1 ≤ y.length := by
    cases y with
    | nil => exact absurd rfl hy
    | cons a l => simp
  obtain ⟨s, hg, heq⟩ := dtw_eq x y hxl hyl
  have HA : ∀ r c, 1 ≤ r → r ≤ y.length → 1 ≤ c → c ≤ x.length →
      s.get_action r c = some (dpAction DistanceMode.Euclidean x y r c) := by
    intro r c h1 h2 h3 h4
    exact (hg r c h1 h3 h4 (by omega)).2
  obtain ⟨l, hl, hhead, hlast⟩ := backtrack_endpoints DistanceMode.Euclidean x y HA
    (y.length + x.length) y.length x.length le_rfl hyl le_rfl hxl le_rfl
  refine ⟨s.get_cost y.length x.length, l.reverse, ?_, ?_, ?_, ?_⟩
  · rw [heq, hl]; rfl
  · intro h
    rw [List.reverse_eq_nil_iff] at h
    subst h
    simp at hhead
  · rw [List.head?_reverse]
    exact hlast
  · rw [List.getLast?_reverse]
    exact hhead

/-- C10: whenever `dtw_ex` returns (backtracking hit no `Unknown` action and
no missing entry), the path has at most `x_size + y_size - 1` entries — each
backtracking step strictly decreases `row + column` — so the
`x_size + y_size` buffer the Rust code pre-allocates is never overrun. -/
theorem C10_backtrack_bound (x y : List ℚ) (window : List (ℕ × ℕ)) (mode : DistanceMode)
    (d : EF) (p : List (ℕ × ℕ)) (h : dtw_ex x y window mode = some (d, p)) :
    p.length ≤ x.length + y.length - 1 := by
  unfold dtw_ex at h
  dsimp only at h
  cases hb : backtrackLoop
      (processCells mode x y (cost_storage y.length x.length) window) y.length x.length with
  | none => rw [hb] at h; cases h
  | some l =>
    rw [hb] at h
    simp only [Option.map_some'] at h
    have hp : l.reverse = p := congrArg Prod.snd (Option.some.inj h)
    rw [← hp, List.length_reverse]
    have := backtrackLoop_length _ (y.length + x.length) y.length x.length l le_rfl hb
    omega

/-- Concrete run of the spec scenario `x = [0,0,0]`, `y = [0,2,0]`: the
accumulated cost is `4` and the path is the pure diagonal — with the tie-break
of `minimum`, the detour through the middle row is never taken. -/
theorem dtw_scenario_run :
    dtw [0, 0, 0] [0, 2, 0] = some (EF.fin 4, [(0, 0), (1, 1), (2, 2)]) := by
  have hseq : (FullWindow.new 3 3).seq =
      [(1, 1), (1, 2), (1, 3), (2, 1), (2, 2), (2, 3), (3, 1), (3, 2), (3, 3)] := by decide
  unfold dtw
  simp only [List.length_cons, List.length_nil]
  rw [hseq]
  norm_num [dtw_ex, processCells, List.foldl_cons, List.foldl_nil, dtwStep, localCost,
    cost_storage, CostStorageImpl.get_cost, CostStorageImpl.set_cost,
    CostStorageImpl.get_action, CostStorageImpl.set_action,
    CostMatrix.new, CostMatrix.get_cost, CostMatrix.set_cost, CostMatrix.get_action,
    CostMatrix.set_action, minimum, EF.blt, EF.add, backtrackLoop, backtrackAux]

/-- C3 counterexample: on `x = [0,0,0]`, `y = [0,2,0]` the code accumulates
cost `4` but reports its square root, `2`, not `4` — and the returned warp
path is the diagonal `[(0,0),(1,1),(2,2)]`, which never leaves row `= column`,
so it does not detour through the middle row via insertion/deletion steps. -/
theorem C3_counterexample :
    dtw [0, 0, 0] [0, 2, 0] = some (EF.fin 4, [(0, 0), (1, 1), (2, 2)]) ∧
      ¬ IsReportedDistance DistanceMode.Euclidean (EF.fin 4) 4 ∧
      ∀ p ∈ [(0, 0), (1, 1), (2, 2)], (p : ℕ × ℕ).1 = p.2 := by
  refine ⟨dtw_scenario_run, ?_, by decide⟩
  intro h
  obtain ⟨-, h2⟩ := h
  norm_num at h2

/-- C3 amended: on `x = [0,0,0]`, `y = [0,2,0]` the accumulated path cost is
`4` (one cell contributes squared difference `4`) and the reported Euclidean
distance is its square root `2`; because ties in `minimum` favour `Matched`,
the returned path is the diagonal `[(0,0),(1,1),(2,2)]` rather than a detour
through the middle row. -/
theorem C3_scenario_amended :
    dtw [0, 0, 0] [0, 2, 0] = some (EF.fin 4, [(0, 0), (1, 1), (2, 2)]) ∧
      IsReportedDistance DistanceMode.Euclidean (EF.fin 4) 2 := by
  refine ⟨dtw_scenario_run, ?_, ?_⟩
  · norm_num
  · norm_num

/-- C7 counterexample: a `FullWindow` built for a table with zero rows and one
column still produces the pair `(1, 1)` — the claimed visitation set
`[1, 0] × [1, 1]` is empty, so the produced sequence differs from the
row-major enumeration. -/
theorem C7_counterexample :
    (FullWindow.new 0 1).seq = [(1, 1)] ∧ rowMajor 0 1 = [] ∧
      (FullWindow.new 0 1).seq ≠ rowMajor 0 1 := by
  decide

/-- C7 amended: for positive `rows` and `cols`, the `FullWindow` built for a
`rows`-row, `cols`-column table produces exactly the pairs of
`[1, rows] × [1, cols]`, each once, in strict row-major order (the row-major
enumeration); the zero-size cases are excluded, where the iterator emits
spurious cells. -/
theorem C7_full_window_amended (rows cols : ℕ) (h1 : 1 ≤ rows) (h2 : 1 ≤ cols) :
    (FullWindow.new rows cols).seq = rowMajor rows cols :=
  fullWindow_seq_rowMajor h1 h2

theorem C7_witness :
    (FullWindow.new 2 3).seq = [(1, 1), (1, 2), (1, 3), (2, 1), (2, 2), (2, 3)] :=
  (C7_full_window_amended 2 3 (by decide) (by decide)).trans (by decide)

theorem C5_witness : dtw [5] [5] = some (EF.fin 0, [(0, 0)]) := by
  have h := (C5_dtw_identity [5] (by simp)).1
  simpa using h

theorem C6_witness :
    ∃ d p, dtw [1, 2] [3] = some (d, p) ∧ p ≠ [] ∧ p.head? = some (0, 0) ∧
      p.getLast? = some (0, 1) := by
  simpa using C6_path_endpoints [1, 2] [3] (by simp) (by simp)

theorem C10_witness :
    ([(0, 0)] : List (ℕ × ℕ)).length ≤ ([0] : List ℚ).length + ([0] : List ℚ).length - 1 := by
  refine C10_backtrack_bound [0] [0] [(1, 1)] DistanceMode.Euclidean (EF.fin 0) [(0, 0)] ?_
  norm_num [dtw_ex, processCells, List.foldl_cons, List.foldl_nil, dtwStep, localCost,
    cost_storage, CostStorageImpl.get_cost, CostStorageImpl.set_cost,
    CostStorageImpl.get_action, CostStorageImpl.set_action,
    CostMatrix.new, CostMatrix.get_cost, CostMatrix.set_cost, CostMatrix.get_action,
    CostMatrix.set_action, minimum, EF.blt, EF.add, backtrackLoop, backtrackAux]

/-- One write through the `CostStorage` trait interface. -/
inductive StorageWrite where
  | cost (row column : ℕ) (value : EF) : StorageWrite
  | act (row column : ℕ) (a : Action) : StorageWrite
deriving DecidableEq, Repr

def StorageWrite.wRow : StorageWrite → ℕ
  | StorageWrite.cost r _ _ => r
  | StorageWrite.act r _ _ => r

def StorageWrite.wCol : StorageWrite → ℕ
  | StorageWrite.cost _ c _ => c
  | StorageWrite.act _ c _ => c

def CostStorageImpl.applyWrite (s : CostStorageImpl) : StorageWrite → CostStorageImpl
  | StorageWrite.cost r c v => s.set_cost r c v
  | StorageWrite.act r c a => s.set_action r c a

def CostStorageImpl.applyWrites (s : CostStorageImpl) (ws : List StorageWrite) :
    CostStorageImpl :=
  ws.foldl CostStorageImpl.applyWrite s

/-- The effect of one write on the cost observed at `(r, c)`. -/
def overwriteCost (r c : ℕ) (acc : EF) : StorageWrite → EF
  | StorageWrite.cost r' c' v => if r' = r ∧ c' = c then v else acc
  | _ => acc

/-- The effect of one write on the action observed at `(r, c)`. -/
def overwriteAct (r c : ℕ) (acc : Option Action) : StorageWrite → Option Action
  | StorageWrite.act r' c' a => if r' = r ∧ c' = c then some a else acc
  | _ => acc

/-- Some write in `ws` writes a cost at `(r, c)`. -/
def CostWritten (ws : List StorageWrite) (r c : ℕ) : Prop :=
  ∃ v, StorageWrite.cost r c v ∈ ws

/-- Some write in `ws` writes an action at `(r, c)`. -/
def ActWritten (ws : List StorageWrite) (r c : ℕ) : Prop :=
  ∃ a, StorageWrite.act r c a ∈ ws

theorem applyWrites_get_cost (ws : List StorageWrite) :
    ∀ (s : CostStorageImpl) (r c : ℕ), 1 ≤ r → 1 ≤ c →
      (s.applyWrites ws).get_cost r c = ws.foldl (overwriteCost r c) (s.get_cost r c) := by
  induction ws with
  | nil => intro s r c _ _; rfl
  | cons w ws ih =>
    intro s r c hr hc
    show ((s.applyWrite w).applyWrites ws).get_cost r c = _
    rw [ih (s.applyWrite w) r c hr hc]
    have hhead : (s.applyWrite w).get_cost r c = overwriteCost r c (s.get_cost r c) w := by
      cases w with
      | cost r' c' v =>
        by_cases h : r' = r ∧ c' = c
        · obtain ⟨rfl, rfl⟩ := h
          simp [CostStorageImpl.applyWrite, overwriteCost, get_cost_set_cost_self s hr hc]
        · have h' : ¬(r = r' ∧ c = c') := by tauto
          simp [CostStorageImpl.applyWrite, overwriteCost, get_cost_set_cost_ne s h', h]
      | act r' c' a =>
        simp [CostStorageImpl.applyWrite, overwriteCost, get_cost_set_action]
    rw [hhead]
    rfl

theorem applyWrites_get_action (ws : List StorageWrite) :
    ∀ (s : CostStorageImpl) (r c : ℕ), 1 ≤ r → 1 ≤ c →
      (s.applyWrites ws).get_action r c =
        ws.foldl (overwriteAct r c) (s.get_action r c) := by
  induction ws with
  | nil => intro s r c _ _; rfl
  | cons w ws ih =>
    intro s r c hr hc
    show ((s.applyWrite w).applyWrites ws).get_action r c = _
    rw [ih (s.applyWrite w) r c hr hc]
    have hhead : (s.applyWrite w).get_action r c = overwriteAct r c (s.get_action r c) w := by
      cases w with
      | cost r' c' v =>
        simp [CostStorageImpl.applyWrite, overwriteAct, get_action_set_cost]
      | act r' c' a =>
        by_cases h : r' = r ∧ c' = c
        · obtain ⟨rfl, rfl⟩ := h
          simp [CostStorageImpl.applyWrite, overwriteAct, get_action_set_action_self s hr hc]
        · have h' : ¬(r = r' ∧ c = c') := by tauto
          simp [CostStorageImpl.applyWrite, overwriteAct, get_action_set_action_ne s h', h]
    rw [hhead]
    rfl

theorem foldl_overwriteCost_of_not_written {ws : List StorageWrite} {r c : ℕ}
    (h : ¬ CostWritten ws r c) (init : EF) :
    ws.foldl (overwriteCost r c) init = init := by
  induction ws generalizing init with
  | nil => rfl
  | cons w ws ih =>
    have hw : overwriteCost r c init w = init := by
      cases w with
      | cost r' c' v =>
        have : ¬(r' = r ∧ c' = c) := by
          rintro ⟨rfl, rfl⟩
          exact h ⟨v, List.mem_cons_self _ _⟩
        simp [overwriteCost, this]
      | act r' c' a => rfl
    show List.foldl (overwriteCost r c) (overwriteCost r c init w) ws = init
    rw [hw]
    exact ih (fun ⟨v, hv⟩ => h ⟨v, List.mem_cons_of_mem _ hv⟩) init

theorem foldl_overwriteCost_of_written {ws : List StorageWrite} {r c : ℕ}
    (h : CostWritten ws r c) (init1 init2 : EF) :
    ws.foldl (overwriteCost r c) init1 = ws.foldl (overwriteCost r c) init2 := by
  induction ws generalizing init1 init2 with
  | nil => obtain ⟨v, hv⟩ := h; cases hv
  | cons w ws ih =>
    show List.foldl _ (overwriteCost r c init1 w) ws = List.foldl _ (overwriteCost r c init2 w) ws
    by_cases hw : ∃ v, w = StorageWrite.cost r c v
    · obtain ⟨v, rfl⟩ := hw
      simp [overwriteCost]
    · by_cases hws : CostWritten ws r c
      · exact ih hws _ _
      · exfalso
        obtain ⟨v, hv⟩ := h
        rcases List.mem_cons.mp hv with hv | hv
        · exact hw ⟨v, hv.symm⟩
        · exact hws ⟨v, hv⟩

theorem foldl_overwriteAct_of_not_written {ws : List StorageWrite} {r c : ℕ}
    (h : ¬ ActWritten ws r c) (init : Option Action) :
    ws.foldl (overwriteAct r c) init = init := by
  induction ws generalizing init with
  | nil => rfl
  | cons w ws ih =>
    have hw : overwriteAct r c init w = init := by
      cases w with
      | act r' c' a =>
        have : ¬(r' = r ∧ c' = c) := by
          rintro ⟨rfl, rfl⟩
          exact h ⟨a, List.mem_cons_self _ _⟩
        simp [overwriteAct, this]
      | cost r' c' v => rfl
    show List.foldl (overwriteAct r c) (overwriteAct r c init w) ws = init
    rw [hw]
    exact ih (fun ⟨a, ha⟩ => h ⟨a, List.mem_cons_of_mem _ ha⟩) init

theorem foldl_overwriteAct_of_written {ws : List StorageWrite} {r c : ℕ}
    (h : ActWritten ws r c) (init1 init2 : Option Action) :
    ws.foldl (overwriteAct r c) init1 = ws.foldl (overwriteAct r c) init2 := by
  induction ws generalizing init1 init2 with
  | nil => obtain ⟨a, ha⟩ := h; cases ha
  | cons w ws ih =>
    show List.foldl _ (overwriteAct r c init1 w) ws = List.foldl _ (overwriteAct r c init2 w) ws
    by_cases hw : ∃ a, w = StorageWrite.act r c a
    · obtain ⟨a, rfl⟩ := hw
      simp [overwriteAct]
    · by_cases hws : ActWritten ws r c
      · exact ih hws _ _
      · exfalso
        obtain ⟨a, ha⟩ := h
        rcases List.mem_cons.mp ha with ha | ha
        · exact hw ⟨a, ha.symm⟩
        · exact hws ⟨a, ha⟩

theorem fresh_matrix_get_cost (rows cols : ℕ) {r c : ℕ} (hr : 1 ≤ r) (hc : 1 ≤ c) :
    (CostStorageImpl.matrix (CostMatrix.new rows cols)).get_cost r c =
      if r = 1 ∧ c = 1 then EF.fin 0 else EF.inf := by
  have h1 : ¬(r = 0 ∧ c = 0) := by omega
  have h2 : ¬(r = 0 ∨ c = 0) := by omega
  simp only [CostStorageImpl.get_cost, CostMatrix.get_cost, CostMatrix.new, h1, h2,
    if_false]
  by_cases h : r = 1 ∧ c = 1
  · obtain ⟨rfl, rfl⟩ := h
    simp
  · have : ¬(r - 1 = 0 ∧ c - 1 = 0) := by omega
    simp [this, h]

theorem fresh_cache_get_cost (rows : ℕ) {r c : ℕ} (hr : 1 ≤ r) (hc : 1 ≤ c) :
    (CostStorageImpl.cache (CostCache.new rows)).get_cost r c = EF.inf := by
  have h1 : ¬(r = 0 ∧ c = 0) := by omega
  have h2 : ¬(r = 0 ∨ c = 0) := by omega
  simp [CostStorageImpl.get_cost, CostCache.get_cost, CostCache.new, h1, h2]

theorem fresh_matrix_get_action (rows cols : ℕ) {r c : ℕ} (hr : 1 ≤ r) (hc : 1 ≤ c) :
    (CostStorageImpl.matrix (CostMatrix.new rows cols)).get_action r c =
      some Action.Unknown := by
  have h2 : ¬(r = 0 ∨ c = 0) := by omega
  simp [CostStorageImpl.get_action, CostMatrix.get_action, CostMatrix.new, h2]

theorem fresh_cache_get_action (rows : ℕ) {r c : ℕ} (hr : 1 ≤ r) (hc : 1 ≤ c) :
    (CostStorageImpl.cache (CostCache.new rows)).get_action r c = none := by
  have h2 : ¬(r = 0 ∨ c = 0) := by omega
  simp [CostStorageImpl.get_action, CostCache.get_action, CostCache.new, h2]

/-- C2 counterexample: after an empty (hence identical) write sequence, the
dense variant returns `0` at the never-written interior cell `(1, 1)` — its
constructor presets buffer slot `[[0, 0]]`, which `get_cost(1, 1)` reads —
while the sparse variant returns `+∞`; so not every `get_cost` query agrees,
and the never-written cell `(1, 1)` does not return `+∞` in both variants. -/
theorem C2_counterexample :
    ((CostStorageImpl.matrix (CostMatrix.new 2 2)).applyWrites []).get_cost 1 1 =
        EF.fin 0 ∧
      ((CostStorageImpl.cache (CostCache.new 2)).applyWrites []).get_cost 1 1 = EF.inf ∧
      EF.fin 0 ≠ EF.inf := by
  decide

/-- C2 amended: for identical write sequences (all writes interior and in
bounds), the dense and sparse variants agree on every `get_cost` query except
at a never-cost-written `(1, 1)`, where dense returns `0` (the preset buffer
slot) and sparse `+∞`; at every other never-written interior cell both return
`+∞`; and `get_action` agrees at every cell whose action was written (on
unwritten cells dense returns the default `Unknown` while sparse has no
entry, a panic). -/
theorem C2_storage_equivalence_amended (rows cols : ℕ) (ws : List StorageWrite)
    (hws : ∀ w ∈ ws, 1 ≤ w.wRow ∧ 1 ≤ w.wCol ∧ w.wRow ≤ rows ∧ w.wCol ≤ cols)
    (r c : ℕ) (hr : 1 ≤ r) (hrR : r ≤ rows) (hc : 1 ≤ c) (hcC : c ≤ cols) :
    ((CostWritten ws r c ∨ ¬(r = 1 ∧ c = 1)) →
      ((CostStorageImpl.matrix (CostMatrix.new rows cols)).applyWrites ws).get_cost r c =
        ((CostStorageImpl.cache (CostCache.new rows)).applyWrites ws).get_cost r c) ∧
    (¬ CostWritten ws r c →
      ((CostStorageImpl.cache (CostCache.new rows)).applyWrites ws).get_cost r c =
          EF.inf ∧
        (¬(r = 1 ∧ c = 1) →
          ((CostStorageImpl.matrix (CostMatrix.new rows cols)).applyWrites ws).get_cost r c
            = EF.inf) ∧
        ((r = 1 ∧ c = 1) →
          ((CostStorageImpl.matrix (CostMatrix.new rows cols)).applyWrites ws).get_cost r c
            = EF.fin 0)) ∧
    (ActWritten ws r c →
      ((CostStorageImpl.matrix (CostMatrix.new rows cols)).applyWrites ws).get_action r c =
        ((CostStorageImpl.cache (CostCache.new rows)).applyWrites ws).get_action r c) := by
  refine ⟨?_, ?_, ?_⟩
  · intro h
    rw [applyWrites_get_cost ws _ r c hr hc, applyWrites_get_cost ws _ r c hr hc]
    rcases h with h | h
    · exact foldl_overwriteCost_of_written h _ _
    · rw [fresh_matrix_get_cost rows cols hr hc, fresh_cache_get_cost rows hr hc, if_neg h]
  · intro h
    refine ⟨?_, ?_, ?_⟩
    · rw [applyWrites_get_cost ws _ r c hr hc, foldl_overwriteCost_of_not_written h,
        fresh_cache_get_cost rows hr hc]
    · intro h11
      rw [applyWrites_get_cost ws _ r c hr hc, foldl_overwriteCost_of_not_written h,
        fresh_matrix_get_cost rows cols hr hc, if_neg h11]
    · intro h11
      rw [applyWrites_get_cost ws _ r c hr hc, foldl_overwriteCost_of_not_written h,
        fresh_matrix_get_cost rows cols hr hc, if_pos h11]
  · intro h
    rw [applyWrites_get_action ws _ r c hr hc, applyWrites_get_action ws _ r c hr hc]
    exact foldl_overwriteAct_of_written h _ _

theorem C2_witness :
    ((CostStorageImpl.matrix (CostMatrix.new 2 2)).applyWrites
        [StorageWrite.cost 1 2 (EF.fin 3)]).get_cost 1 2 =
      ((CostStorageImpl.cache (CostCache.new 2)).applyWrites
        [StorageWrite.cost 1 2 (EF.fin 3)]).get_cost 1 2 :=
  (C2_storage_equivalence_amended 2 2 [StorageWrite.cost 1 2 (EF.fin 3)]
    (by decide) 1 2 (by decide) (by decide) (by decide) (by decide)).1
    (Or.inr (by decide))

/-- `coarse_time_series` from `src/fastdtw.rs`: average non-overlapping blocks
of `resolution_factor` samples; the last, possibly short, block averages only
the remaining samples.  The Rust loop steps `pos` through
`0, R, 2R, … < rounded_coarsed_size * R` and writes slot `pos / R`; position
`j` of the result therefore corresponds to `pos = j * R`.  The rounded size
`ceil(len / R)`, computed in `f64` in Rust, equals `(len + R - 1) / R` for
every in-memory sequence length. -/
def coarse_time_series (ts : List ℚ) (resolution_factor : ℕ) : List ℚ :=
  let rounded_coarsed_size := (ts.length + resolution_factor - 1) / resolution_factor
  (List.range rounded_coarsed_size).map (fun j =>
    let pos := j * resolution_factor
    let endIdx := min (pos + resolution_factor) ts.length
    let sum := ((List.range (endIdx - pos)).map (fun i => ts.getD (pos + i) 0)).sum
    sum / ((endIdx - pos : ℕ) : ℚ))

theorem range_map_getD_eq_take_drop (ts : List ℚ) :
    ∀ pos n, pos + n ≤ ts.length →
      (List.range n).map (fun i => ts.getD (pos + i) 0) = (ts.drop pos).take n := by
  intro pos n hn
  apply List.ext_getElem
  · simp
    omega
  · intro i h1 h2
    simp only [List.length_map, List.length_range] at h1
    simp only [List.getElem_map, List.getElem_range, List.getElem_take, List.getElem_drop]
    rw [List.getD_eq_getElem ts 0 (by omega)]

/-- C8: for every sequence and every resolution factor `R ≥ 1`, the
downsampled sequence has length `ceil(|ts| / R)` and its `i`-th element is the
arithmetic mean of the block `ts[i·R .. min((i+1)·R, |ts|)]` — the last,
possibly short, block averaging only the remaining samples. -/
theorem C8_coarse_time_series (ts : List ℚ) (R : ℕ) (hR : 1 ≤ R) :
    (coarse_time_series ts R).length = (ts.length + R - 1) / R ∧
      ∀ i, i < (ts.length + R - 1) / R →
        (coarse_time_series ts R).getD i 0 =
          ((ts.drop (i * R)).take R).sum / (((ts.drop (i * R)).take R).length : ℚ) := by
  constructor
  · simp [coarse_time_series]
  · intro i hi
    have hlt : i * R < ts.length := by
      have h1 : i + 1 ≤ (ts.length + R - 1) / R := hi
      have h2 : (i + 1) * R ≤ ((ts.length + R - 1) / R) * R :=
        Nat.mul_le_mul_right R h1
      have h3 : ((ts.length + R - 1) / R) * R ≤ ts.length + R - 1 := Nat.div_mul_le_self _ _
      have h4 : (i + 1) * R = i * R + R := by ring
      omega
    have hend : min (i * R + R) ts.length - i * R = min R (ts.length - i * R) := by omega
    have hblock : (ts.drop (i * R)).take R =
        (ts.drop (i * R)).take (min R (ts.length - i * R)) := by
      rw [List.take_eq_take]
      simp
    have hmap := range_map_getD_eq_take_drop ts (i * R) (min R (ts.length - i * R)) (by omega)
    have hlen : ((ts.drop (i * R)).take R).length = min R (ts.length - i * R) := by
      simp
    unfold coarse_time_series
    rw [List.getD_eq_getElem _ 0 (by simpa using hi)]
    simp only [List.getElem_map, List.getElem_range]
    rw [hend, hmap, hlen, ← hblock]

theorem C8_witness :
    (coarse_time_series [1, 2, 3] 2).getD 1 0 =
      ((([1, 2, 3] : List ℚ).drop (1 * 2)).take 2).sum /
        (((([1, 2, 3] : List ℚ).drop (1 * 2)).take 2).length : ℚ) :=
  (C8_coarse_time_series [1, 2, 3] 2 (by decide)).2 1 (by decide)

/-- `usize::MAX`, the sentinel initial minimum of an untouched constraints
row. -/
def usizeMAX : ℕ := 2 ^ 64 - 1

/-- `ConstrainedWindow` from `src/window.rs`: per-row `(min, max)` column
bounds plus the iteration cursor.  The `Array1` of pairs is a list indexed
with `getD`; all accesses in the program are in range. -/
structure ConstrainedWindow where
  constraints : List (ℕ × ℕ)
  row : ℕ
  column : ℕ
deriving DecidableEq, Repr

/-- `ConstrainedWindow::visit`: widen row `row`'s bounds to include
`column`. -/
def ConstrainedWindow.visit (w : ConstrainedWindow) (row column : ℕ) : ConstrainedWindow :=
  let mn := (w.constraints.getD row (usizeMAX, 0)).1
  let mx := (w.constraints.getD row (usizeMAX, 0)).2
  let mn' := if mn > column then column else mn
  let mx' := if mx < column then column else mx
  { w with constraints := w.constraints.set row (mn', mx') }

/-- The body of the path loop of `from_low_res_path` (`src/window.rs`, lines
80-143): convert the coarse pair to 1-based indices, mark its
`resolution_factor × resolution_factor` block (clipped to the table), and on a
diagonal move mark the two `ceil(R/2)`-sized patches straddling the shared
corner.  The state carries `(window, prev_low_res_row, prev_low_res_column)`;
`ceil(R/2)` is `(R + 1) / 2`. -/
def projectPair (resolution_factor high_res_rows high_res_columns : ℕ)
    (st : ConstrainedWindow × ℕ × ℕ) (p : ℕ × ℕ) : ConstrainedWindow × ℕ × ℕ :=
  let low_res_row := p.1 + 1
  let low_res_column := p.2 + 1
  let prev_low_res_row := st.2.1
  let prev_low_res_column := st.2.2
  let w1 := (List.range resolution_factor).foldl (fun w row =>
    let high_res_row := (low_res_row - 1) * resolution_factor + 1 + row
    (List.range resolution_factor).foldl (fun w column =>
      let high_res_column := (low_res_column - 1) * resolution_factor + 1 + column
      if high_res_row < high_res_rows + 1 ∧ high_res_column < high_res_columns + 1 then
        w.visit high_res_row high_res_column
      else w) w) st.1
  let w2 :=
    if prev_low_res_row < low_res_row ∧ prev_low_res_column < low_res_column then
      let corner_bottom_left_row :=
        (prev_low_res_row - 1) * resolution_factor + resolution_factor
      let corner_bottom_left_column :=
        (prev_low_res_column - 1) * resolution_factor + resolution_factor
      let corner_top_right_row := corner_bottom_left_row + 1
      let corner_top_right_column := corner_bottom_left_column + 1
      let half_resolution_factor := (resolution_factor + 1) / 2
      (List.range half_resolution_factor).foldl (fun w row =>
        (List.range half_resolution_factor).foldl (fun w column =>
          let w := if corner_top_right_column + column < high_res_columns + 1 then
              w.visit (corner_bottom_left_row - row) (corner_top_right_column + column)
            else w
          if corner_top_right_row + row < high_res_rows + 1 then
            w.visit (corner_top_right_row + row) (corner_bottom_left_column - column)
          else w) w) w1
    else w1
  (w2, low_res_row, low_res_column)

/-- One iteration of the first expansion loop (`src/window.rs`, lines
152-160): capture `row_max`, then widen rows `row, row-1, …, row-S` at the
expanded maximum. -/
def expandMax (search_radius high_res_columns : ℕ) (w : ConstrainedWindow) (row : ℕ) :
    ConstrainedWindow :=
  let row_max := (w.constraints.getD row (usizeMAX, 0)).2
  (List.range (search_radius + 1)).foldl (fun w i =>
    let expanded_row_max := min (row_max + search_radius) high_res_columns
    if row > i ∧ row - i ≥ 1 then w.visit (row - i) expanded_row_max else w) w

/-- One iteration of the second expansion loop (`src/window.rs`, lines
161-172): capture `row_min`, then widen rows `row, row+1, …, row+S` at the
expanded minimum. -/
def expandMin (search_radius high_res_rows : ℕ) (w : ConstrainedWindow) (row : ℕ) :
    ConstrainedWindow :=
  let row_min := (w.constraints.getD row (usizeMAX, 0)).1
  (List.range (search_radius + 1)).foldl (fun w i =>
    let expanded_row_min := if row_min > search_radius then row_min - search_radius else 1
    if row + i ≤ high_res_rows then w.visit (row + i) expanded_row_min else w) w

/-- `ConstrainedWindow::from_low_res_path`. -/
def ConstrainedWindow.from_low_res_path (low_res_path : List (ℕ × ℕ))
    (resolution_factor search_radius high_res_rows high_res_columns : ℕ) :
    ConstrainedWindow :=
  let w0 : ConstrainedWindow :=
    { constraints := List.replicate (high_res_rows + 1) (usizeMAX, 0), row := 1, column := 1 }
  let res := low_res_path.foldl
    (projectPair resolution_factor high_res_rows high_res_columns) (w0, usizeMAX, usizeMAX)
  let w1 := res.1
  let w2 := (List.range' 1 (w1.constraints.length - 1)).foldl
    (expandMax search_radius high_res_columns) w1
  let w3 := ((List.range' 1 (w2.constraints.length - 1)).reverse).foldl
    (expandMin search_radius high_res_rows) w2
  w3

/-- One call to the `Iterator::next` of `ConstrainedWindow` (`src/window.rs`,
lines 190-209). -/
def ConstrainedWindow.next (w : ConstrainedWindow) :
    Option ((ℕ × ℕ) × ConstrainedWindow) :=
  if w.column ≤ (w.constraints.getD w.row (usizeMAX, 0)).2 then
    some ((w.row, w.column), { w with column := w.column + 1 })
  else if w.row < w.constraints.length - 1 then
    some ((w.row + 1, (w.constraints.getD (w.row + 1) (usizeMAX, 0)).1),
      { w with row := w.row + 1, column := (w.constraints.getD (w.row + 1) (usizeMAX, 0)).1 + 1 })
  else
    none

/-- States the iterator can reach from `w0` by repeated `next`. -/
inductive ConstrainedWindow.Reaches (w0 : ConstrainedWindow) : ConstrainedWindow → Prop where
  | refl : ConstrainedWindow.Reaches w0 w0
  | step {w : ConstrainedWindow} {p : ℕ × ℕ} {w' : ConstrainedWindow} :
      ConstrainedWindow.Reaches w0 w → w.next = some (p, w') →
      ConstrainedWindow.Reaches w0 w'

/-- `p` is one of the pairs the iterator started at `w0` produces. -/
def ConstrainedWindow.Produces (w0 : ConstrainedWindow) (p : ℕ × ℕ) : Prop :=
  ∃ w w', ConstrainedWindow.Reaches w0 w ∧ w.next = some (p, w')

theorem foldl_preserve {α β : Type} {P : α → Prop} {f : α → β → α}
    (hf : ∀ a b, P a → P (f a b)) : ∀ (l : List β) (a : α), P a → P (l.foldl f a) := by
  intro l
  induction l with
  | nil => intro a ha; exact ha
  | cons b l ih => intro a ha; exact ih (f a b) (hf a b ha)

theorem getD_set_self {l : List (ℕ × ℕ)} {r : ℕ} (h : r < l.length) (a d : ℕ × ℕ) :
    (l.set r a).getD r d = a := by
  rw [List.getD_eq_getElem _ _ (by simpa using h)]
  simp [List.getElem_set_self]

theorem getD_set_other {l : List (ℕ × ℕ)} {r p : ℕ} (h : r ≠ p) (a d : ℕ × ℕ) :
    (l.set r a).getD p d = l.getD p d := by
  simp [List.getD, List.getElem?_set_ne h]

/-- Row `ρ`'s bounds are consistent: its minimum does not exceed its
maximum. -/
def GoodRow (w : ConstrainedWindow) (ρ : ℕ) : Prop :=
  (w.constraints.getD ρ (usizeMAX, 0)).1 ≤ (w.constraints.getD ρ (usizeMAX, 0)).2

theorem visit_constraints_length (w : ConstrainedWindow) (r v : ℕ) :
    (w.visit r v).constraints.length = w.constraints.length := by
  simp [ConstrainedWindow.visit]

theorem visit_row (w : ConstrainedWindow) (r v : ℕ) : (w.visit r v).row = w.row := rfl

theorem visit_column (w : ConstrainedWindow) (r v : ℕ) :
    (w.visit r v).column = w.column := rfl

/-- An in-range `visit` leaves the visited row consistent: the new bounds
bracket the visited column. -/
theorem visit_goodRow_self {w : ConstrainedWindow} {r : ℕ}
    (h : r < w.constraints.length) (v : ℕ) : GoodRow (w.visit r v) r := by
  unfold GoodRow ConstrainedWindow.visit
  simp only
  rw [getD_set_self h]
  dsimp only
  split <;> split <;> omega

/-- Any `visit` preserves the consistency of any row. -/
theorem visit_goodRow_pres {w : ConstrainedWindow} {ρ : ℕ} (hg : GoodRow w ρ) (r v : ℕ) :
    GoodRow (w.visit r v) ρ := by
  by_cases hr : r < w.constraints.length
  · by_cases hrρ : r = ρ
    · subst hrρ
      exact visit_goodRow_self hr v
    · unfold GoodRow ConstrainedWindow.visit
      simp only
      rw [getD_set_other hrρ]
      exact hg
  · unfold GoodRow ConstrainedWindow.visit
    simp only
    rw [List.set_eq_of_length_le (by omega)]
    exact hg

/-- The shape and cursor facts preserved by every construction step. -/
def Stable (L : ℕ) (w : ConstrainedWindow) : Prop :=
  w.constraints.length = L ∧ w.row = 1 ∧ w.column = 1

theorem visit_stable {L : ℕ} {w : ConstrainedWindow} (h : Stable L w) (r v : ℕ) :
    Stable L (w.visit r v) := by
  obtain ⟨h1, h2, h3⟩ := h
  exact ⟨by rw [visit_constraints_length, h1], by rw [visit_row, h2],
    by rw [visit_column, h3]⟩

/-- A property preserved by every `visit`. -/
def VisitClosed (P : ConstrainedWindow → Prop) : Prop :=
  ∀ (w : ConstrainedWindow) (r v : ℕ), P w → P (w.visit r v)

theorem stable_visitClosed (L : ℕ) : VisitClosed (Stable L) :=
  fun _ r v h => visit_stable h r v

theorem goodRow_visitClosed (ρ : ℕ) : VisitClosed (fun w => GoodRow w ρ) :=
  fun _ r v h => visit_goodRow_pres h r v

theorem projectPair_pres {P : ConstrainedWindow → Prop} (hP : VisitClosed P)
    (R hr hc : ℕ) (st : ConstrainedWindow × ℕ × ℕ) (p : ℕ × ℕ) (h : P st.1) :
    P (projectPair R hr hc st p).1 := by
  unfold projectPair
  dsimp only
  split
  · refine foldl_preserve ?_ _ _ (foldl_preserve ?_ _ _ h)
    · intro w row hw
      refine foldl_preserve ?_ _ _ hw
      intro w' col hw'
      dsimp only
      split
      · split
        · exact hP _ _ _ (hP _ _ _ hw')
        · exact hP _ _ _ hw'
      · split
        · exact hP _ _ _ hw'
        · exact hw'
    · intro w row hw
      refine foldl_preserve ?_ _ _ hw
      intro w' col hw'
      dsimp only
      split
      · exact hP _ _ _ hw'
      · exact hw'
  · refine foldl_preserve ?_ _ _ h
    intro w row hw
    refine foldl_preserve ?_ _ _ hw
    intro w' col hw'
    dsimp only
    split
    · exact hP _ _ _ hw'
    · exact hw'

theorem expandMax_pres {P : ConstrainedWindow → Prop} (hP : VisitClosed P)
    (S cols : ℕ) {w : ConstrainedWindow} (h : P w) (row : ℕ) :
    P (expandMax S cols w row) := by
  unfold expandMax
  refine foldl_preserve ?_ _ _ h
  intro w' i hw
  dsimp only
  split
  · exact hP _ _ _ hw
  · exact hw

theorem expandMin_pres {P : ConstrainedWindow → Prop} (hP : VisitClosed P)
    (S rows : ℕ) {w : ConstrainedWindow} (h : P w) (row : ℕ) :
    P (expandMin S rows w row) := by
  unfold expandMin
  refine foldl_preserve ?_ _ _ h
  intro w' i hw
  dsimp only
  split
  · exact hP _ _ _ hw
  · exact hw

theorem expandMax_constraints_length (S cols : ℕ) (w : ConstrainedWindow) (row : ℕ) :
    (expandMax S cols w row).constraints.length = w.constraints.length := by
  unfold expandMax
  refine foldl_preserve
    (P := fun (w' : ConstrainedWindow) => w'.constraints.length = w.constraints.length)
    ?_ _ _ rfl
  intro w' i hw
  dsimp only
  split
  · rw [visit_constraints_length]; exact hw
  · exact hw

/-- The first expansion loop makes row `row` consistent: its `i = 0` step
always visits `row` itself. -/
theorem expandMax_establishes (S cols : ℕ) {w : ConstrainedWindow} {row : ℕ}
    (h1 : 1 ≤ row) (h2 : row < w.constraints.length) :
    GoodRow (expandMax S cols w row) row := by
  unfold expandMax
  rw [List.range_succ_eq_map]
  dsimp only [List.foldl_cons]
  have hcond : row > 0 ∧ row - 0 ≥ 1 := by omega
  rw [if_pos hcond]
  refine foldl_preserve (P := fun w' => GoodRow w' row) ?_ _ _ ?_
  · intro w' i hw
    dsimp only
    split
    · exact visit_goodRow_pres hw _ _
    · exact hw
  · exact visit_goodRow_self (show row - 0 < w.constraints.length by omega) _

theorem fold_expandMax_goodRows (S cols : ℕ) :
    ∀ (l : List ℕ) (w : ConstrainedWindow),
      (∀ ρ ∈ l, 1 ≤ ρ ∧ ρ < w.constraints.length) →
      ∀ ρ ∈ l, GoodRow (l.foldl (expandMax S cols) w) ρ := by
  intro l
  induction l with
  | nil => intro w _ ρ h; cases h
  | cons a l ih =>
    intro w hb ρ hρ
    dsimp only [List.foldl_cons]
    rcases List.mem_cons.mp hρ with rfl | hρ
    · have ha := hb ρ (List.mem_cons_self _ _)
      refine foldl_preserve (P := fun w' => GoodRow w' ρ) ?_ _ _ ?_
      · intro w' r hw
        exact expandMax_pres (goodRow_visitClosed ρ) S cols hw r
      · exact expandMax_establishes S cols ha.1 ha.2
    · refine ih (expandMax S cols w a) (fun p hp => ?_) ρ hρ
      rw [expandMax_constraints_length]
      exact hb p (List.mem_cons_of_mem _ hp)

/-- After construction the window is in its initial cursor position, has
`high_res_rows + 1` constraint rows, and every row in `[1, high_res_rows]`
has consistent bounds (the first expansion loop visits each such row). -/
theorem from_low_res_path_spec (low_res_path : List (ℕ × ℕ))
    (R S rows cols : ℕ) :
    Stable (rows + 1) (ConstrainedWindow.from_low_res_path low_res_path R S rows cols) ∧
      ∀ ρ, 1 ≤ ρ → ρ ≤ rows →
        GoodRow (ConstrainedWindow.from_low_res_path low_res_path R S rows cols) ρ := by
  unfold ConstrainedWindow.from_low_res_path
  dsimp only
  set w0 : ConstrainedWindow :=
    { constraints := List.replicate (rows + 1) (usizeMAX, 0), row := 1, column := 1 } with hw0
  have hst0 : Stable (rows + 1) w0 := ⟨by simp [hw0], rfl, rfl⟩
  have hst1 : Stable (rows + 1)
      (low_res_path.foldl (projectPair R rows cols) (w0, usizeMAX, usizeMAX)).1 :=
    foldl_preserve (P := fun st => Stable (rows + 1) st.1)
      (fun st p h => projectPair_pres (stable_visitClosed (rows + 1)) R rows cols st p h)
      low_res_path (w0, usizeMAX, usizeMAX) hst0
  set w1 := (low_res_path.foldl (projectPair R rows cols) (w0, usizeMAX, usizeMAX)).1
  have hlen1 : w1.constraints.length = rows + 1 := hst1.1
  set w2 := (List.range' 1 (w1.constraints.length - 1)).foldl (expandMax S cols) w1 with hw2
  have hst2 : Stable (rows + 1) w2 :=
    foldl_preserve (P := Stable (rows + 1))
      (fun w r h => expandMax_pres (stable_visitClosed (rows + 1)) S cols h r)
      (List.range' 1 (w1.constraints.length - 1)) w1 hst1
  have hgood2 : ∀ ρ, 1 ≤ ρ → ρ ≤ rows → GoodRow w2 ρ := by
    intro ρ h1 h2
    refine fold_expandMax_goodRows S cols _ w1 (fun p hp => ?_) ρ ?_
    · rw [List.mem_range'_1] at hp
      omega
    · rw [List.mem_range'_1, hlen1]
      omega
  have hst3 : Stable (rows + 1)
      (((List.range' 1 (w2.constraints.length - 1)).reverse).foldl (expandMin S rows) w2) :=
    foldl_preserve (P := Stable (rows + 1))
      (fun w r h => expandMin_pres (stable_visitClosed (rows + 1)) S rows h r)
      ((List.range' 1 (w2.constraints.length - 1)).reverse) w2 hst2
  have hgood3 : ∀ ρ, 1 ≤ ρ → ρ ≤ rows →
      GoodRow (((List.range' 1 (w2.constraints.length - 1)).reverse).foldl
        (expandMin S rows) w2) ρ := by
    intro ρ h1 h2
    exact foldl_preserve (P := fun w => GoodRow w ρ)
      (fun w r h => expandMin_pres (goodRow_visitClosed ρ) S rows h r)
      ((List.range' 1 (w2.constraints.length - 1)).reverse) w2 (hgood2 ρ h1 h2)
  exact ⟨hst3, hgood3⟩

theorem next_constraints {w : ConstrainedWindow} {p : ℕ × ℕ} {w' : ConstrainedWindow}
    (h : w.next = some (p, w')) : w'.constraints = w.constraints := by
  unfold ConstrainedWindow.next at h
  by_cases hA : w.column ≤ (w.constraints.getD w.row (usizeMAX, 0)).2
  · rw [if_pos hA] at h
    cases h
    rfl
  · rw [if_neg hA] at h
    by_cases hB : w.row < w.constraints.length - 1
    · rw [if_pos hB] at h
      cases h
      rfl
    · rw [if_neg hB] at h
      cases h

/-- Invariant of the iteration: the constraints never change, and the cursor
column is at least the current row's minimum on every row entered through a
row advance (on row 1 the iterator starts at column 1 regardless of the
row's minimum). -/
def IterInv (K : List (ℕ × ℕ)) (w : ConstrainedWindow) : Prop :=
  w.constraints = K ∧
    ((w.row = 1 ∧ 1 ≤ w.column) ∨
      (2 ≤ w.row ∧ w.row ≤ K.length - 1 ∧ (K.getD w.row (usizeMAX, 0)).1 ≤ w.column))

theorem iterInv_step {K : List (ℕ × ℕ)} {w : ConstrainedWindow} {p : ℕ × ℕ}
    {w' : ConstrainedWindow} (hi : IterInv K w) (h : w.next = some (p, w')) :
    IterInv K w' := by
  obtain ⟨hK, hcase⟩ := hi
  unfold ConstrainedWindow.next at h
  by_cases hA : w.column ≤ (w.constraints.getD w.row (usizeMAX, 0)).2
  · rw [if_pos hA] at h
    cases h
    refine ⟨hK, ?_⟩
    dsimp only
    rcases hcase with ⟨h1, h2⟩ | ⟨h1, h2, h3⟩
    · exact Or.inl ⟨h1, by omega⟩
    · exact Or.inr ⟨h1, h2, by omega⟩
  · rw [if_neg hA] at h
    by_cases hB : w.row < w.constraints.length - 1
    · rw [if_pos hB] at h
      cases h
      rw [hK] at hB
      refine ⟨hK, Or.inr ?_⟩
      dsimp only
      refine ⟨?_, by omega, ?_⟩
      · rcases hcase with ⟨h1, _⟩ | ⟨h1, _, _⟩ <;> omega
      · rw [hK]
        omega
    · rw [if_neg hB] at h
      cases h

theorem reaches_iterInv {K : List (ℕ × ℕ)} {w0 w : ConstrainedWindow}
    (h0 : IterInv K w0) (h : ConstrainedWindow.Reaches w0 w) : IterInv K w := by
  induction h with
  | refl => exact h0
  | step hr hn ih => exact iterInv_step ih hn

/-- What a single emission satisfies, given the invariant and consistent rows:
the emitted column never exceeds the row's maximum; it is at least the row's
minimum for every row `≥ 2`; and on row 1 it is at least the minimum provided
that minimum does not exceed the starting column 1. -/
theorem next_emission {K : List (ℕ × ℕ)} {w : ConstrainedWindow} {r c : ℕ}
    {w' : ConstrainedWindow} (hi : IterInv K w)
    (hg : ∀ ρ, 2 ≤ ρ → ρ ≤ K.length - 1 →
      (K.getD ρ (usizeMAX, 0)).1 ≤ (K.getD ρ (usizeMAX, 0)).2)
    (h : w.next = some ((r, c), w')) :
    c ≤ (K.getD r (usizeMAX, 0)).2 ∧
      (2 ≤ r → (K.getD r (usizeMAX, 0)).1 ≤ c) ∧
      ((K.getD 1 (usizeMAX, 0)).1 ≤ 1 → (K.getD r (usizeMAX, 0)).1 ≤ c) := by
  obtain ⟨hK, hcase⟩ := hi
  unfold ConstrainedWindow.next at h
  by_cases hA : w.column ≤ (w.constraints.getD w.row (usizeMAX, 0)).2
  · rw [if_pos hA] at h
    cases h
    rw [hK] at hA
    refine ⟨hA, ?_, ?_⟩
    · intro hr2
      rcases hcase with ⟨h1, h2⟩ | ⟨h1, h2, h3⟩
      · omega
      · exact h3
    · intro h1min
      rcases hcase with ⟨h1, h2⟩ | ⟨h1, h2, h3⟩
      · rw [h1]
        omega
      · exact h3
  · rw [if_neg hA] at h
    by_cases hB : w.row < w.constraints.length - 1
    · rw [if_pos hB] at h
      cases h
      rw [hK] at hB
      have hrow2 : 2 ≤ w.row + 1 := by
        rcases hcase with ⟨h1, _⟩ | ⟨h1, _, _⟩ <;> omega
      rw [hK]
      exact ⟨hg (w.row + 1) hrow2 (by omega), fun _ => le_rfl, fun _ => le_rfl⟩
    · rw [if_neg hB] at h
      cases h

/-- C4 counterexample: build the window from the coarse path `[(0, 1)]` with
resolution factor 1, search radius 0, on a 1 × 2 fine table.  Construction
leaves `constraints[1] = (2, 2)`, but the iterator starts at column 1 and its
first emission is `(1, 1)`, whose column `1` is below `constraints[1].min = 2`
— the visitation-band invariant fails on row 1. -/
theorem C4_counterexample :
    (ConstrainedWindow.from_low_res_path [(0, 1)] 1 0 1 2).Produces (1, 1) ∧
      ((ConstrainedWindow.from_low_res_path [(0, 1)] 1 0 1 2).constraints.getD 1
        (usizeMAX, 0)).1 = 2 ∧
      ¬(2 ≤ 1) := by
  refine ⟨⟨ConstrainedWindow.from_low_res_path [(0, 1)] 1 0 1 2,
    { constraints := [(usizeMAX, 0), (2, 2)], row := 1, column := 2 },
    ConstrainedWindow.Reaches.refl, by decide⟩, by decide, by decide⟩

/-- C4 amended: for every window built by `from_low_res_path` (any coarse
path, resolution factor, search radius and table dimensions), every produced
pair `(row, column)` satisfies `column ≤ constraints[row].max`; the lower
bound `constraints[row].min ≤ column` holds for every row `≥ 2` (rows entered
through a row advance), and on row 1 — where the cursor starts at column 1
regardless of the stored minimum — it holds provided
`constraints[1].min ≤ 1`, which is the case whenever the coarse path starts
at `(0, 0)`. -/
theorem C4_window_band_amended (low_res_path : List (ℕ × ℕ)) (R S rows cols r c : ℕ)
    (h : (ConstrainedWindow.from_low_res_path low_res_path R S rows cols).Produces (r, c)) :
    c ≤ ((ConstrainedWindow.from_low_res_path low_res_path R S rows cols).constraints.getD r
        (usizeMAX, 0)).2 ∧
      (2 ≤ r →
        ((ConstrainedWindow.from_low_res_path low_res_path R S rows
          cols).constraints.getD r (usizeMAX, 0)).1 ≤ c) ∧
      (((ConstrainedWindow.from_low_res_path low_res_path R S rows
            cols).constraints.getD 1 (usizeMAX, 0)).1 ≤ 1 →
        ((ConstrainedWindow.from_low_res_path low_res_path R S rows
          cols).constraints.getD r (usizeMAX, 0)).1 ≤ c) := by
  obtain ⟨hst, hgood⟩ := from_low_res_path_spec low_res_path R S rows cols
  obtain ⟨w, w', hreach, hnext⟩ := h
  have h0 : IterInv
      (ConstrainedWindow.from_low_res_path low_res_path R S rows cols).constraints
      (ConstrainedWindow.from_low_res_path low_res_path R S rows cols) := by
    refine ⟨rfl, Or.inl ⟨hst.2.1, ?_⟩⟩
    rw [hst.2.2]
  have hi := reaches_iterInv h0 hreach
  refine next_emission hi ?_ hnext
  intro ρ h2 h3
  rw [hst.1] at h3
  exact hgood ρ (by omega) (by omega)

theorem C4_witness :
    (1 : ℕ) ≤ ((ConstrainedWindow.from_low_res_path [(0, 0)] 1 0 1 1).constraints.getD 1
      (usizeMAX, 0)).2 :=
  (C4_window_band_amended [(0, 0)] 1 0 1 1 1 1
    ⟨ConstrainedWindow.from_low_res_path [(0, 0)] 1 0 1 1,
      { constraints := [(usizeMAX, 0), (1, 1)], row := 1, column := 2 },
      ConstrainedWindow.Reaches.refl, by decide⟩).1

end Dtw
